import Mathlib

/-!
Verification of the Kyanite compiler and runtime against its specification.

The definitions below are shallow embeddings of the Rust source:
machine words are modelled as `Nat`, raw pointers as `Nat` addresses,
byte-addressed heap memory as functions `Nat → Nat`, and fallible or
possibly non-terminating code as `Option`-returning functions (with
explicit fuel where the source loop has no syntactic bound).
-/

namespace Kyanite

/-! ## Runtime allocator (crates/runtime/src/alloc.rs) -/

/-- `CLASS_METADATA_FIELDS` from alloc.rs: metadata cell count for classes. -/
def CLASS_METADATA_FIELDS : Nat := 2

/-- `ARRAY_METADATA_FIELDS` from alloc.rs: metadata cell count for arrays. -/
def ARRAY_METADATA_FIELDS : Nat := 1

/-- `bytes_to_num` from alloc.rs.  The Rust source folds over the reversed
byte string with accumulator step `acc + (place * 10).max(1) * digit`,
where `digit` is the decimal digit value of the ASCII byte
(`char::from(b'9' - (b'9' - b)).to_digit(10)` is just the digit of `b`,
i.e. `b - 48`). -/
def bytes_to_num (bytes : List Nat) : Nat :=
  (bytes.reverse.enum).foldl
    (fun acc pb => acc + Nat.max (pb.1 * 10) 1 * (pb.2 - 48)) 0

/-- The mathematical decimal value of an ASCII digit string (what the spec
says the array descriptor encodes). -/
def decimalValue (bytes : List Nat) : Nat :=
  bytes.foldl (fun acc b => acc * 10 + (b - 48)) 0

/-- The cell count allocated by `init_array` in alloc.rs:
`bytes_to_num(bytes) + ARRAY_METADATA_FIELDS`. -/
def init_array_count (descriptorBytes : List Nat) : Nat :=
  bytes_to_num descriptorBytes + ARRAY_METADATA_FIELDS

/-- `str::parse::<usize>` on a descriptor byte string, as used by the
garbage collector to discriminate arrays from classes: succeeds exactly
on nonempty all-digit strings and returns the decimal value. -/
def parseUsize (bytes : List Nat) : Option Nat :=
  if bytes ≠ [] ∧ bytes.all (fun b => 48 ≤ b ∧ b ≤ 57) then
    some (decimalValue bytes)
  else
    none

/-! ### GC root scan (`Allocator::reachable`)

`reachable` walks `(0..).step_by(8).skip(1).map_while(|o| fp.add(o) <= sp)`,
so it visits the addresses `fp + 8`, `fp + 16`, … up to and including `sp`
(the first slot `fp` itself is skipped by `skip(1)`).  `fp` here is already
the adjusted frame base `frame.ptr - |frame.size|` computed in `gc`. -/

/-- The list of stack addresses visited by the scan loop of
`Allocator::reachable`: `fp + 8·(i+1)` for all `i` with `fp + 8·(i+1) ≤ sp`. -/
def scannedSlots (fp sp : Nat) : List Nat :=
  (List.range ((sp - fp) / 8)).map (fun i => fp + 8 * (i + 1))

/-- `Allocator::reachable` from alloc.rs: keep the scanned slots whose
stored word is one of the recorded allocation base pointers, paired with
that word. -/
def reachable (fp sp : Nat) (mem : Nat → Nat) (allocations : List Nat) :
    List (Nat × Nat) :=
  ((scannedSlots fp sp).filter (fun src => allocations.contains (mem src))).map
    (fun src => (src, mem src))

/-! ### Allocation entry (`Allocator::alloc`)

The bump arena and the collector are abstracted into the state type `σ`:
`tryAlloc` is `Bump::try_alloc_layout` (plus the descriptor copy and the
allocation-list push on success), `gcFn` is `Allocator::gc`.  The third
result component counts how many times `gcFn` has run. -/

def allocAttempt {σ : Type} (tryAlloc : σ → Option (Nat × σ)) (gcFn : σ → σ)
    (gcAlways : Bool) (tries : Nat) (s : σ) (gcCount : Nat) :
    Except String Nat × σ × Nat :=
  let s1 := if gcAlways then gcFn s else s
  let g1 := if gcAlways then gcCount + 1 else gcCount
  if tries < 2 then
    match tryAlloc s1 with
    | some ps => (Except.ok ps.1, ps.2, g1)
    | none => allocAttempt tryAlloc gcFn gcAlways (tries + 1) (gcFn s1) (g1 + 1)
  else
    (Except.error "runtime: alloc: failed to allocate memory", s1, g1)
termination_by 2 - tries
decreasing_by omega

/-! ## ARM64 abstract instructions (crates/kyac/src/backend/kyir/arch/armv8a/isa.rs) -/

/-- `RelOp` from the tree IR (`ir::RelOp`). -/
inductive RelOp where
  | Equal | NotEqual | Less | Greater | LessEqual | GreaterEqual
  deriving DecidableEq, Repr

/-- The `A64` instruction kind from isa.rs (operand fields as in the source;
immediates as `Int`). -/
inductive A64 where
  | Data (kind value : String)
  | Label (name : String)
  | LoadImmediate (dst src : String) (offset : Int)
  | StoreImmediate (src dst : String) (offset : Int)
  | LoadEffective (dst addr : String)
  | StorePair (r1 r2 : String)
  | LoadPair (r1 r2 : String)
  | Add (dst r1 r2 : String)
  | Sub (dst r1 r2 : String)
  | Mul (dst r1 r2 : String)
  | Div (dst r1 r2 : String)
  | Move (dst src : String)
  | Branch (label : String) (rel : Option RelOp)
  | BranchLink (label : String)
  | Call (ext : String)
  | Compare (lhs rhs : String)
  | Ret
  deriving DecidableEq, Repr

namespace A64

/-- `FlowGraphMeta::defines` for `A64`. -/
def defines : A64 → List String
  | .LoadImmediate dst _ _ => [dst]
  | .LoadEffective dst _ => [dst]
  | .Add dst _ _ => [dst]
  | .Sub dst _ _ => [dst]
  | .Mul dst _ _ => [dst]
  | .Div dst _ _ => [dst]
  | .LoadPair r1 r2 => [r1, r2]
  | .Move dst _ => [dst]
  | _ => []

/-- `FlowGraphMeta::uses` for `A64` (with the `x29` frame-pointer guards of
the source). -/
def uses : A64 → List String
  | .StoreImmediate src dst _ => if dst = "x29" then [src] else [src, dst]
  | .LoadImmediate dst src _ => if src = "x29" then [dst] else [dst, src]
  | .LoadEffective _ addr => [addr]
  | .Move _ src => [src]
  | .StorePair r1 r2 => [r1, r2]
  | .Add _ r1 r2 => [r1, r2]
  | .Sub _ r1 r2 => [r1, r2]
  | .Mul _ r1 r2 => [r1, r2]
  | .Div _ r1 r2 => [r1, r2]
  | .Compare lhs rhs => [lhs, rhs]
  | _ => []

/-- `FlowGraphMeta::jump` for `A64`: true for *any* `Branch` (conditional or
not) and for `BranchLink`. -/
def jump : A64 → Bool
  | .Branch _ _ => true
  | .BranchLink _ => true
  | _ => false

/-- `FlowGraphMeta::label` for `A64`. -/
def labelOf : A64 → Option String
  | .Label name => some name
  | _ => none

/-- `FlowGraphMeta::to` for `A64`. -/
def toL : A64 → Option String
  | .BranchLink l => some l
  | .Branch l _ => some l
  | _ => none

end A64

/-! ## Control-flow graph (crates/kyac/src/backend/kyir/alloc/liveness.rs)

The adjacency map `Graph.adj` is modelled as an association list from
instruction position to successor list; `Graph::add` appends to the entry
(creating it if absent), matching `adj.entry(stmt).or_default().push(next)`. -/

/-- `Graph::add`. -/
def adjAdd (adj : List (Nat × List Nat)) (stmt next : Nat) :
    List (Nat × List Nat) :=
  if adj.any (fun e => e.1 = stmt) then
    adj.map (fun e => if e.1 = stmt then (e.1, e.2 ++ [next]) else e)
  else
    adj ++ [(stmt, [next])]

/-- The `position` search for a label used in `From<&Vec<AsmInstr>> for Graph`. -/
def labelPosition (instrs : List A64) (label : String) : Option Nat :=
  instrs.findIdx? (fun x => x.labelOf = some label)

/-- The graph-construction worklist of `From<&Vec<AsmInstr>> for Graph`:
breadth-first from position 0; a transfer instruction gets successors
`[target-position, i+1]`, anything else `[i+1]`; a successor is enqueued
when unvisited and `< instrs.len() - 1`.  `none` on fuel exhaustion, a
missing target label, or an out-of-range worklist position (the source
panics there). -/
def buildGraphLoop (instrs : List A64) :
    Nat → List Nat → List Nat → List (Nat × List Nat) →
      Option (List (Nat × List Nat))
  | 0, _, _, _ => none
  | _ + 1, [], _, adj => some adj
  | fuel + 1, stmt :: rest, visited, adj =>
    match instrs[stmt]? with
    | none => none
    | some instr =>
      let succOpt :=
        match instr.toL with
        | some label =>
          match labelPosition instrs label with
          | some idx => some [idx, stmt + 1]
          | none => none
        | none => some [stmt + 1]
      match succOpt with
      | none => none
      | some successors =>
        let step := successors.foldl
          (fun (acc : List (Nat × List Nat) × List Nat × List Nat) next =>
            let adj2 := adjAdd acc.1 stmt next
            if acc.2.2.contains next = false ∧ next < instrs.length - 1 then
              (adj2, acc.2.1 ++ [next], acc.2.2 ++ [next])
            else
              (adj2, acc.2.1, acc.2.2))
          (adj, rest, visited)
        buildGraphLoop instrs fuel step.2.1 step.2.2 step.1

/-- `restore` from liveness.rs: for every adjacency entry whose instruction
satisfies `jump()` (that is, any `Branch` — conditional or not — or
`BranchLink`), remove the fall-through successor `i+1`, re-adding it only
when the next instruction's label equals the transfer target.  (When the
transfer is the final instruction the source indexes `instrs[from + 1]`
out of range and panics; that case is modelled as no re-add.) -/
def nextLabelMatches (instrs : List A64) (i : Nat) : Bool :=
  match instrs[i + 1]?.bind A64.labelOf, instrs[i]?.bind A64.toL with
  | some l, some t => l = t
  | _, _ => false

def restore (instrs : List A64) (adj : List (Nat × List Nat)) :
    List (Nat × List Nat) :=
  adj.map (fun e =>
    match instrs[e.1]? with
    | some instr =>
      if instr.jump then
        let kept := e.2.filter (fun x => x ≠ e.1 + 1)
        if nextLabelMatches instrs e.1 then (e.1, kept ++ [e.1 + 1])
        else (e.1, kept)
      else e
    | none => e)

/-- `From<&Vec<AsmInstr>> for Graph`: build the adjacency, then `restore`. -/
def graphOf (instrs : List A64) (fuel : Nat) : Option (List (Nat × List Nat)) :=
  (buildGraphLoop instrs fuel [0] [] []).map (restore instrs)

/-! ## Live ranges and interference (liveness.rs `LiveRanges`) -/

/-- `LiveRanges::lines`: the instruction positions at which a range is live. -/
def lines (range : List Bool) : List Nat :=
  ((range.enum).filter (fun p => p.2 = true)).map Prod.fst

/-- The interference list computed for one temporary `t` with live range
`r`: the other keys of `ranges` whose live lines overlap `lines r`. -/
def interfListOf (ranges : List (String × List Bool)) (t : String)
    (r : List Bool) : List String :=
  ((ranges.filter (fun o => o.1 ≠ t)).filter
      (fun o =>
        0 < ((lines r).filter (fun x => (lines o.2).contains x)).length)).map
    Prod.fst

/-- `LiveRanges::interferences`: for each temporary, the other temporaries
whose live lines overlap its own. -/
def interferences (ranges : List (String × List Bool)) :
    List (String × List String) :=
  ranges.map (fun tr => (tr.1, interfListOf ranges tr.1 tr.2))

/-! ## Liveness analysis (liveness.rs `Graph::liveness`) -/

/-- `Graph::uses`: the instruction positions whose `uses()` set contains
`temp`. -/
def usesIdx (instrs : List A64) (temp : String) : List Nat :=
  ((instrs.enum).filter (fun p => p.2.uses.contains temp)).map Prod.fst

/-- Whether the instruction at position `i` uses `temp` (out-of-range is
`false`). -/
def usesAt (instrs : List A64) (i : Nat) (temp : String) : Bool :=
  match instrs[i]? with
  | some instr => instr.uses.contains temp
  | none => false

/-- `Graph::defines` at a position (the source indexes with `unwrap`;
out-of-range is modelled as `false`). -/
def definesAt (instrs : List A64) (i : Nat) (temp : String) : Bool :=
  match instrs[i]? with
  | some instr => instr.defines.contains temp
  | none => false

/-- `Graph::predecessors`: the adjacency keys whose successor list
contains `cur`. -/
def predecessors (adj : List (Nat × List Nat)) (cur : Nat) : List Nat :=
  (adj.filter (fun e => e.2.contains cur)).map Prod.fst

/-- The successor list of a position (`self.adj[&i]`, empty if absent). -/
def succsOf (adj : List (Nat × List Nat)) (i : Nat) : List Nat :=
  (List.lookup i adj).getD []

/-- The inner worklist of `Graph::liveness`: pop the front; when the
position does not define `temp`, mark it live and push all its
predecessors.  The source loop has no termination guarantee, hence the
fuel; `List.set` out of range is a no-op where the source would panic
(`live[cur]` with `cur ≥ adj.len()`). -/
def livenessLoop (instrs : List A64) (adj : List (Nat × List Nat))
    (temp : String) : Nat → List Nat → List Bool → Option (List Bool)
  | 0, _, _ => none
  | _ + 1, [], live => some live
  | fuel + 1, cur :: rest, live =>
    if definesAt instrs cur temp = true then
      livenessLoop instrs adj temp fuel rest live
    else
      livenessLoop instrs adj temp fuel (rest ++ predecessors adj cur)
        (live.set cur true)

/-- `Graph::liveness`: a boolean vector of length `adj.len()`, seeded and
propagated from every use site of `temp`. -/
def liveness (instrs : List A64) (adj : List (Nat × List Nat))
    (temp : String) (fuel : Nat) : Option (List Bool) :=
  (usesIdx instrs temp).foldlM
    (fun live site =>
      livenessLoop instrs adj temp fuel [site] (live.set site true))
    (List.replicate adj.length false)

/-- The claim's notion of liveness at `i`: a CFG path from `i` to a use of
`temp` such that no node strictly before the use defines `temp` (the use
itself may also define `temp`, as in `add T1, T1, T2`). -/
inductive UsePath (instrs : List A64) (adj : List (Nat × List Nat))
    (temp : String) : Nat → Prop
  | use (i : Nat) : usesAt instrs i temp = true → UsePath instrs adj temp i
  | step (i j : Nat) : definesAt instrs i temp = false →
      j ∈ succsOf adj i → UsePath instrs adj temp j →
      UsePath instrs adj temp i

/-- The relation the worklist actually computes beyond the use sites
themselves: a CFG path from `i` to a use of `temp` on which *no* node —
the final use included — defines `temp`. -/
inductive Propagates (instrs : List A64) (adj : List (Nat × List Nat))
    (temp : String) : Nat → Prop
  | use (i : Nat) : usesAt instrs i temp = true →
      definesAt instrs i temp = false → Propagates instrs adj temp i
  | step (i j : Nat) : definesAt instrs i temp = false →
      j ∈ succsOf adj i → Propagates instrs adj temp j →
      Propagates instrs adj temp i

/-- Backward chains along `predecessors` with no defining node, used to
track what one worklist run marks. -/
inductive PredPath (instrs : List A64) (adj : List (Nat × List Nat))
    (temp : String) : Nat → Nat → Prop
  | refl (w : Nat) : definesAt instrs w temp = false →
      PredPath instrs adj temp w w
  | step (w p k : Nat) : definesAt instrs w temp = false →
      p ∈ predecessors adj w → PredPath instrs adj temp p k →
      PredPath instrs adj temp w k

/-- Justification carried by every worklist element: it is a use site, or
a predecessor of a node that propagates. -/
def PushedOK (instrs : List A64) (adj : List (Nat × List Nat))
    (temp : String) (w : Nat) : Prop :=
  usesAt instrs w temp = true ∨
    ∃ j, j ∈ succsOf adj w ∧ Propagates instrs adj temp j

/-! ## Register colouring (crates/kyac/src/backend/kyir/alloc/color.rs) -/

/-- One iteration of the `while let Some(temp) = live.pop()` body of
`Color::color`: if `temp` is not yet coloured, give it the first register
of the target's temporary set not used by any already-coloured
interference neighbour.  A missing interference entry or an exhausted
register list is a failure (the source panics in both cases:
`self.interferences[temp]` and `.expect("ran out of registers")`). -/
def assignTemp (interf : List (String × List String)) (regs : List String)
    (colors : List (String × String)) (temp : String) :
    Option (List (String × String)) :=
  if (List.lookup temp colors).isSome then some colors
  else
    match List.lookup temp interf with
    | none => none
    | some neighbors =>
      let used := neighbors.map (fun t => List.lookup t colors)
      match regs.find? (fun r => !(used.contains (some r))) with
      | some r => some (colors ++ [(temp, r)])
      | none => none

/-- `live.sort_by_key(...)` of `Color::color`: stable ascending sort by
local interference degree in this line's graph
(`graph.get(t).map_or(0, HashSet::len)`). -/
def sortByDegree (graph : List (String × List String)) (live : List String) :
    List String :=
  live.mergeSort (fun a b =>
    decide (((List.lookup a graph).map List.length).getD 0 ≤
      ((List.lookup b graph).map List.length).getD 0))

/-- One `for (line, graph)` iteration of `Color::color`: collect the
temporaries whose range is live at `line`, sort ascending by degree, and
pop from the back (highest degree first). -/
def colorLine (interf : List (String × List String)) (regs : List String)
    (ranges : List (String × List Bool))
    (graph : List (String × List String)) (line : Nat)
    (colors : List (String × String)) : Option (List (String × String)) :=
  let live := (ranges.filter (fun tr => tr.2.getD line false)).map Prod.fst
  ((sortByDegree graph live).reverse).foldlM (assignTemp interf regs) colors

/-- `Color::color`. -/
def color (ranges : List (String × List Bool))
    (interf : List (String × List String))
    (liveGraphs : List (List (String × List String))) (regs : List String) :
    Option (List (String × String)) :=
  (liveGraphs.enum).foldlM
    (fun colors lg => colorLine interf regs ranges lg.2 lg.1 colors) []

/-- Invariant maintained by the colouring loop: assigned keys are
distinct, every assigned register comes from the supplied register list,
and interfering temporaries never share an assigned register. -/
def ColorsInv (ranges : List (String × List Bool)) (regs : List String)
    (colors : List (String × String)) : Prop :=
  (colors.map Prod.fst).Nodup ∧
  (∀ t c, List.lookup t colors = some c → c ∈ regs) ∧
  (∀ a sa b ca cb, (a, sa) ∈ interferences ranges → b ∈ sa →
    List.lookup a colors = some ca → List.lookup b colors = some cb →
    ca ≠ cb)

/-! ## Tree IR and translator (kyanite-core/src/backend/kyir/translate.rs) -/

/-- `BinOp` from translate.rs. -/
inductive BinOp where
  | Plus | Minus | Mul | Div | Xor
  | Cmp (rel : RelOp)
  deriving DecidableEq, Repr

mutual
/-- `Expr` from translate.rs (`ConstFloat` is omitted: no lowering
considered here produces it). -/
inductive KExpr where
  | ConstInt (i : Int)
  | Temp (name : String)
  | Binary (op : BinOp) (left right : KExpr)
  | Mem (addr : KExpr)
  | CallE (name : String) (args : List KExpr)
  | ESeq (stmt : KStmt) (expr : KExpr) (id : Nat)
  deriving Repr

/-- `Stmt` from translate.rs (`Seq { left, right: Option }`). -/
inductive KStmt where
  | Move (target expr : KExpr)
  | SExpr (expr : KExpr)
  | SLabel (name : String)
  | Seq (left : KStmt) (right : Option KStmt)
  | Jump (label : String)
  | Noop
  | CJump (op : BinOp) (condition : KExpr) (t f : String)
  deriving Repr
end

/-- `Expr::condition()` from translate.rs. -/
def conditionOf : KExpr → Option RelOp
  | KExpr.Binary (BinOp.Cmp rel) _ _ => some rel
  | KExpr.ConstInt _ => some RelOp.Equal
  | _ => none

/-- The condition the translator builds for an `if`/`while` whose AST
condition is the integer literal `i`:
`Binary { op: Cmp(Equal), left: ConstInt(i), right: ConstInt(0) }`. -/
def constCondition (i : Int) : KExpr :=
  KExpr.Binary (BinOp.Cmp RelOp.Equal) (KExpr.ConstInt i) (KExpr.ConstInt 0)

/-- `Translate<Stmt> for AstStmt`, `If` arm, specialised to an integer
literal condition.  The labels `t`, `f`, `done` stand for the three
`Label::new()` results; `is`/`otherwise` are the translated branches.
`none` only if `condition.condition()` fails (source unwraps). -/
def translateIfInt (i : Int) (t f done : String) (is otherwise : KStmt) :
    Option KStmt :=
  match conditionOf (constCondition i) with
  | none => none
  | some rel =>
    some (KStmt.Seq
      (KStmt.Seq
        (KStmt.Seq
          (KStmt.Seq
            (KStmt.CJump (BinOp.Cmp rel) (constCondition i) t f)
            (some (KStmt.Seq (KStmt.SLabel t) (some is))))
          (some (KStmt.Jump done)))
        (some (KStmt.Seq (KStmt.SLabel f) (some otherwise))))
      (some (KStmt.SLabel done)))

/-- `Translate<Stmt> for AstStmt`, `While` arm, for an integer literal
condition (`body` already ends with the appended `Jump(test)`). -/
def translateWhileInt (i : Int) (t f test : String) (body : KStmt) :
    Option KStmt :=
  match conditionOf (constCondition i) with
  | none => none
  | some rel =>
    some (KStmt.Seq
      (KStmt.Seq
        (KStmt.Seq (KStmt.SLabel test)
          (some (KStmt.CJump (BinOp.Cmp rel) (constCondition i) t f)))
        (some (KStmt.Seq (KStmt.SLabel t) (some body))))
      (some (KStmt.SLabel f)))

/-- Truth of a `RelOp` on two integers: the comparison performed at run
time by the `cmp` + conditional-branch pair that codegen emits for a
`CJump` (`compare(lhs, rhs)` from the condition's binary shape, then
`conditional_jump(t, rel)` with the CJump's own `op`). -/
def evalRel (rel : RelOp) (a b : Int) : Bool :=
  match rel with
  | RelOp.Equal => decide (a = b)
  | RelOp.NotEqual => decide (a ≠ b)
  | RelOp.Less => decide (a < b)
  | RelOp.Greater => decide (b < a)
  | RelOp.LessEqual => decide (a ≤ b)
  | RelOp.GreaterEqual => decide (b ≤ a)

/-- The first `CJump` of a statement tree, in evaluation order. -/
def firstCJump : KStmt → Option (BinOp × KExpr × String × String)
  | KStmt.CJump op cond t f => some (op, cond, t, f)
  | KStmt.Seq l r =>
    match firstCJump l with
    | some c => some c
    | none =>
      match r with
      | some rs => firstCJump rs
      | none => none
  | _ => none

/-- The label a lowered `CJump` over a constant comparison transfers to:
the true-label `t` when the relation holds between the compared
constants, the fall-through false-label `f` otherwise. -/
def cjumpTarget : BinOp × KExpr × String × String → Option String
  | (BinOp.Cmp rel, KExpr.Binary _ (KExpr.ConstInt a) (KExpr.ConstInt b), t, f) =>
    some (if evalRel rel a b then t else f)
  | _ => none

/-! ## Canonicaliser (crates/kyac/src/backend/kyir/translate/canon/mod.rs)

The driver `canonicalize`, the `Extract` pass and its `update` helper are
in the source; the submodules `rewrite.rs`, `eseq.rs`, `blocks.rs` and
`trace.rs` are not, and are modelled from the spec below (each such
definition's comment says so). -/

mutual
/-- The `ESeq` ids occurring anywhere in an expression. -/
def exprIds : KExpr → List Nat
  | KExpr.Binary _ l r => exprIds l ++ exprIds r
  | KExpr.Mem a => exprIds a
  | KExpr.CallE _ args => exprIdsList args
  | KExpr.ESeq s e i => i :: (stmtIds s ++ exprIds e)
  | _ => []
termination_by e => sizeOf e

def exprIdsList : List KExpr → List Nat
  | [] => []
  | e :: es => exprIds e ++ exprIdsList es
termination_by l => sizeOf l

/-- The `ESeq` ids occurring anywhere in a statement. -/
def stmtIds : KStmt → List Nat
  | KStmt.Move t e => exprIds t ++ exprIds e
  | KStmt.SExpr e => exprIds e
  | KStmt.CJump _ c _ _ => exprIds c
  | KStmt.Seq l (some rr) => stmtIds l ++ stmtIds rr
  | KStmt.Seq l none => stmtIds l
  | _ => []
termination_by s => sizeOf s
decreasing_by
  all_goals simp_wf
  all_goals omega
end

mutual
/-- No `Seq` node anywhere in an expression (inside `ESeq` statements). -/
def exprNoSeq : KExpr → Bool
  | KExpr.Binary _ l r => exprNoSeq l && exprNoSeq r
  | KExpr.Mem a => exprNoSeq a
  | KExpr.CallE _ args => exprNoSeqList args
  | KExpr.ESeq s e _ => stmtNoSeq s && exprNoSeq e
  | _ => true
termination_by e => sizeOf e

def exprNoSeqList : List KExpr → Bool
  | [] => true
  | e :: es => exprNoSeq e && exprNoSeqList es
termination_by l => sizeOf l

/-- No `Seq` node anywhere in a statement. -/
def stmtNoSeq : KStmt → Bool
  | KStmt.Seq _ _ => false
  | KStmt.Move t e => exprNoSeq t && exprNoSeq e
  | KStmt.SExpr e => exprNoSeq e
  | KStmt.CJump _ c _ _ => exprNoSeq c
  | _ => true
termination_by s => sizeOf s
decreasing_by
  all_goals simp_wf
  all_goals omega
end

/-- A statement that `update` may push whole or split one level: not a
`Seq`, or a `Seq` whose immediate components are not `Seq`s. -/
def flatPiece : KStmt → Bool
  | KStmt.Seq (KStmt.Seq _ _) _ => false
  | KStmt.Seq _ (some (KStmt.Seq _ _)) => false
  | _ => true

mutual
/-- Every `ESeq` in the expression is *simple*: its statement holds no
`ESeq` and no nested `Seq` beyond one level, and its payload expression
holds no `ESeq`.  (This is the shape the translator produces: `fix`
wraps a single `Move` around a fresh temp, and `Init` wraps a `Seq`
chain of `Move`s with a constant payload.) -/
def exprSimple : KExpr → Bool
  | KExpr.Binary _ l r => exprSimple l && exprSimple r
  | KExpr.Mem a => exprSimple a
  | KExpr.CallE _ args => exprSimpleList args
  | KExpr.ESeq s e _ =>
    decide (stmtIds s = []) && flatPiece s && decide (exprIds e = [])
  | _ => true
termination_by e => sizeOf e

def exprSimpleList : List KExpr → Bool
  | [] => true
  | e :: es => exprSimple e && exprSimpleList es
termination_by l => sizeOf l

/-- Every `ESeq` in the statement is simple; a `Move` target must itself
be `ESeq`-free, since `Extract` lifts only from the moved expression
(`update(&m.expr, ..)`), never from the target. -/
def stmtSimple : KStmt → Bool
  | KStmt.Move t e => decide (exprIds t = []) && exprSimple e
  | KStmt.SExpr e => exprSimple e
  | KStmt.CJump _ c _ _ => exprSimple c
  | KStmt.Seq l (some rr) => stmtSimple l && stmtSimple rr
  | KStmt.Seq l none => stmtSimple l
  | _ => true
termination_by s => sizeOf s
decreasing_by
  all_goals simp_wf
  all_goals omega
end

mutual
/-- Modelled from the spec: the `ESeqs` collector of canon/eseq.rs
(`expr.eseqs(&mut nested)`), missing from src/.  Spec §4.3.1:
"recursively lift any `ESeq(stmt, expr, id)` nested in an expression",
with "extraction order ... leaves-first": every `ESeq` anywhere in the
expression -- including those nested inside another `ESeq`'s carried
statement or payload -- is collected, leaves before the node that
contains them. -/
def eseqsOf : KExpr → List KExpr
  | KExpr.Binary _ l r => eseqsOf l ++ eseqsOf r
  | KExpr.Mem a => eseqsOf a
  | KExpr.CallE _ args => eseqsOfList args
  | KExpr.ESeq s e i => eseqsOfStmt s ++ eseqsOf e ++ [KExpr.ESeq s e i]
  | _ => []
termination_by e => sizeOf e

def eseqsOfList : List KExpr → List KExpr
  | [] => []
  | e :: es => eseqsOf e ++ eseqsOfList es
termination_by l => sizeOf l

/-- The `ESeq` nodes anywhere inside a statement, leaves-first (the
statement side of the spec-modelled collector above). -/
def eseqsOfStmt : KStmt → List KExpr
  | KStmt.Move t e => eseqsOf t ++ eseqsOf e
  | KStmt.SExpr e => eseqsOf e
  | KStmt.CJump _ c _ _ => eseqsOf c
  | KStmt.Seq l (some rr) => eseqsOfStmt l ++ eseqsOfStmt rr
  | KStmt.Seq l none => eseqsOfStmt l
  | _ => []
termination_by s => sizeOf s
decreasing_by
  all_goals simp_wf
  all_goals omega
end

mutual
/-- Modelled from the spec: `Rewrite::replace` of canon/rewrite.rs
(`stmt.replace(search, &temp)`), missing from src/: substitute the
recorded payload expression for every `ESeq` carrying the searched id
(spec §4.3.2 "apply recorded substitutions (by id)"). -/
def replaceExpr (sid : Nat) (rep : KExpr) : KExpr → KExpr
  | KExpr.Binary op l r =>
    KExpr.Binary op (replaceExpr sid rep l) (replaceExpr sid rep r)
  | KExpr.Mem a => KExpr.Mem (replaceExpr sid rep a)
  | KExpr.CallE n args => KExpr.CallE n (replaceExprList sid rep args)
  | KExpr.ESeq s e i =>
    if i = sid then rep
    else KExpr.ESeq (replaceStmt sid rep s) (replaceExpr sid rep e) i
  | e => e
termination_by e => sizeOf e

def replaceExprList (sid : Nat) (rep : KExpr) : List KExpr → List KExpr
  | [] => []
  | e :: es => replaceExpr sid rep e :: replaceExprList sid rep es
termination_by l => sizeOf l

def replaceStmt (sid : Nat) (rep : KExpr) : KStmt → KStmt
  | KStmt.Move t e =>
    KStmt.Move (replaceExpr sid rep t) (replaceExpr sid rep e)
  | KStmt.SExpr e => KStmt.SExpr (replaceExpr sid rep e)
  | KStmt.CJump op c t f => KStmt.CJump op (replaceExpr sid rep c) t f
  | KStmt.Seq l (some rr) =>
    KStmt.Seq (replaceStmt sid rep l) (some (replaceStmt sid rep rr))
  | KStmt.Seq l none => KStmt.Seq (replaceStmt sid rep l) none
  | s => s
termination_by s => sizeOf s
decreasing_by
  all_goals simp_wf
  all_goals omega
end

/-- One step of `update`'s loop body: push the `ESeq`'s statement
(splitting a one-level `Seq` into its components) and record
`(id, expr)`; a non-`ESeq` element makes the source panic (skipped). -/
def updStep (acc : List KStmt × List (Nat × KExpr)) (e : KExpr) :
    List KStmt × List (Nat × KExpr) :=
  match e with
  | KExpr.ESeq s rexpr i =>
    (match s with
     | KStmt.Seq sl (some srr) => (acc.1 ++ [sl, srr], acc.2 ++ [(i, rexpr)])
     | KStmt.Seq sl none => (acc.1 ++ [sl], acc.2 ++ [(i, rexpr)])
     | s1 => (acc.1 ++ [s1], acc.2 ++ [(i, rexpr)]))
  | _ => acc

/-- `update` from canon/mod.rs: for each collected `ESeq`, in reverse
collection order, push its statement and record the substitution. -/
def update (expr : KExpr) (ir : List KStmt)
    (replacements : List (Nat × KExpr)) :
    List KStmt × List (Nat × KExpr) :=
  (eseqsOf expr).reverse.foldl updStep (ir, replacements)

/-- `Extract for Stmt` from canon/mod.rs: flatten `Seq` trees; for
`Move`/`Expr`/`CJump`, first lift the nested `ESeq` statements via
`update`, then push the statement itself; `Label`, `Noop`, `Jump` are
pushed as-is. -/
def extract : KStmt → List KStmt × List (Nat × KExpr) →
    List KStmt × List (Nat × KExpr)
  | KStmt.Seq l (some rr), acc => extract rr (extract l acc)
  | KStmt.Seq l none, acc => extract l acc
  | KStmt.Move t e, acc =>
    let acc1 := update e acc.1 acc.2
    (acc1.1 ++ [KStmt.Move t e], acc1.2)
  | KStmt.SExpr e, acc =>
    let acc1 := update e acc.1 acc.2
    (acc1.1 ++ [KStmt.SExpr e], acc1.2)
  | KStmt.CJump op c t f, acc =>
    let acc1 := update c acc.1 acc.2
    (acc1.1 ++ [KStmt.CJump op c t f], acc1.2)
  | s, acc => (acc.1 ++ [s], acc.2)

/-- `Stmt::label()` from translate.rs (`Seq` takes the left label), as an
`Option` where the source panics. -/
def stmtLabel : KStmt → Option String
  | KStmt.Seq l _ => stmtLabel l
  | KStmt.SLabel n => some n
  | _ => none

/-- Modelled from the spec: the `Rewrite` pass of canon/rewrite.rs
(`item.rewrite(false, false)`), missing from src/.  The spec describes
canonicalisation's observable phases (ESeq extraction, flatten and
replace, block formation) as implemented by the driver below, and
records no separate observable effect for this pre-pass, so it is
modelled as the identity. -/
def rewriteStmt (s : KStmt) : KStmt := s

def isNoop : KStmt → Bool
  | KStmt.Noop => true
  | _ => false

def isSeqStmt : KStmt → Bool
  | KStmt.Seq _ _ => true
  | _ => false

def isTerminatorStmt : KStmt → Bool
  | KStmt.Jump _ => true
  | KStmt.CJump _ _ _ _ => true
  | _ => false

def isLabelStmt : KStmt → Bool
  | KStmt.SLabel _ => true
  | _ => false

/-- Modelled from the spec: `BasicBlocks::new` of canon/blocks.rs,
missing from src/ (spec §4.3.3: "Split the flat list at labels and
control transfers so that each block starts with a label and ends with a
jump").  A block opens at each label (closing any open block with a
`Jump` to the new label); a transfer closes the open block; statements
outside any block cannot occur in translator output and are dropped; the
final open block is closed with a `Jump` to the distinguished epilogue
label `done`. -/
def basicBlocksAux (done : String) :
    List KStmt → Option (List KStmt) → List (List KStmt) →
      List (List KStmt)
  | [], none, blocks => blocks
  | [], some cur, blocks => blocks ++ [cur ++ [KStmt.Jump done]]
  | s :: rest, cur, blocks =>
    match s with
    | KStmt.SLabel n =>
      basicBlocksAux done rest (some [KStmt.SLabel n])
        (match cur with
         | none => blocks
         | some c => blocks ++ [c ++ [KStmt.Jump n]])
    | KStmt.Jump l =>
      (match cur with
       | none => basicBlocksAux done rest none blocks
       | some c => basicBlocksAux done rest none (blocks ++ [c ++ [KStmt.Jump l]]))
    | KStmt.CJump op c2 t f =>
      (match cur with
       | none => basicBlocksAux done rest none blocks
       | some c => basicBlocksAux done rest none
          (blocks ++ [c ++ [KStmt.CJump op c2 t f]]))
    | other =>
      (match cur with
       | none => basicBlocksAux done rest none blocks
       | some c => basicBlocksAux done rest (some (c ++ [other])) blocks)

def basicBlocks (done : String) (flat : List KStmt) : List (List KStmt) :=
  basicBlocksAux done flat none []

/-- `Rel::negate()` (spec §4.3.3). -/
def negateRel : RelOp → RelOp
  | RelOp.Equal => RelOp.NotEqual
  | RelOp.NotEqual => RelOp.Equal
  | RelOp.Less => RelOp.GreaterEqual
  | RelOp.GreaterEqual => RelOp.Less
  | RelOp.Greater => RelOp.LessEqual
  | RelOp.LessEqual => RelOp.Greater

/-- Negate a `CJump`'s comparison and swap its targets (used when the
tracer emits the true-target next). -/
def swapCJumpLast (b : List KStmt) : List KStmt :=
  match b.getLast? with
  | some (KStmt.CJump (BinOp.Cmp rel) c t f) =>
    b.dropLast ++ [KStmt.CJump (BinOp.Cmp (negateRel rel)) c f t]
  | _ => b

def blockLabel : List KStmt → Option String
  | KStmt.SLabel n :: _ => some n
  | _ => none

def pickBlock (lbl : String) (queue : List (List KStmt)) :
    Option (List KStmt × List (List KStmt)) :=
  match queue.partition (fun blk => blockLabel blk = some lbl) with
  | (found :: more, others) => some (found, more ++ others)
  | ([], _) => none

/-- Modelled from the spec: the tracer of canon/trace.rs (`trace::new`),
missing from src/ (spec §4.3.3): repeatedly emit the front block; prefer
to continue with the block labelled by the emitted block's fall-through
target (a `CJump`'s false-target as-is; its true-target after negate and
swap; a `Jump`'s target).  When neither `CJump` target is still queued,
emit an unconditional `Jump` to re-enter the (already emitted)
false-target block -- as a fresh labelled block so the `CJump`'s
fall-through lands on it -- and continue with an arbitrary (the next)
queued block.  Fuel bounds the loop; leftovers are emitted unchanged on
exhaustion. -/
def traceGo (fuel : Nat) (queue : List (List KStmt)) :
    List (List KStmt) :=
  match fuel, queue with
  | 0, q => q
  | _ + 1, [] => []
  | fuel + 1, b :: rest =>
    match b.getLast? with
    | some (KStmt.CJump op c t f) =>
      (match pickBlock f rest with
       | some (nxt, others) => b :: traceGo fuel (nxt :: others)
       | none =>
         match pickBlock t rest with
         | some (nxt, others) =>
           swapCJumpLast b :: traceGo fuel (nxt :: others)
         | none =>
           b :: [KStmt.SLabel (f ++ ".fix"), KStmt.Jump f] ::
             traceGo fuel rest)
    | some (KStmt.Jump l) =>
      (match pickBlock l rest with
       | some (nxt, others) => b :: traceGo fuel (nxt :: others)
       | none => b :: traceGo fuel rest)
    | _ => b :: traceGo fuel rest

/-- One item of the extraction loop in `canonicalize`: extract the item
into a fresh body (replacements accumulate across items) and record its
leading label. -/
def extractStep
    (acc : List (Option String × List KStmt) × List (Nat × KExpr))
    (item : KStmt) :
    List (Option String × List KStmt) × List (Nat × KExpr) :=
  let eb := extract item ([], acc.2)
  (acc.1 ++ [(stmtLabel item, eb.1)], eb.2)

/-- One recorded substitution applied to every statement of every group
(the inner loops of `canonicalize`'s replacement pass). -/
def replaceGroupsStep (groups : List (Option String × List KStmt))
    (sr : Nat × KExpr) : List (Option String × List KStmt) :=
  groups.map (fun g => (g.1, g.2.map (replaceStmt sr.1 sr.2)))

/-- `canonicalize` from canon/mod.rs: rewrite, drop `Noop`s, extract each
item into a `(label, body)` group while accumulating replacements, apply
every recorded substitution to every statement, then form basic blocks
and trace them.  (The modelled block former and tracer take the epilogue
label `done` and trace fuel explicitly.) -/
def canonicalize (done : String) (fuel : Nat) (ir : List KStmt) :
    List (List KStmt) :=
  let ir1 := (ir.map rewriteStmt).filter (fun s => !(isNoop s))
  let extracted := ir1.foldl extractStep ([], [])
  let replaced := extracted.2.foldl replaceGroupsStep extracted.1
  let flat := (replaced.map Prod.snd).join
  traceGo fuel (basicBlocks done flat)

/-- Well-formed basic block: starts with a label, ends with a transfer,
and contains no other transfer or label. -/
def blockWF (b : List KStmt) : Bool :=
  match b with
  | KStmt.SLabel _ :: rest =>
    (match rest.getLast? with
     | some t => isTerminatorStmt t
     | none => false) &&
    rest.dropLast.all (fun s => !(isTerminatorStmt s) && !(isLabelStmt s))
  | _ => false

/-- Translator output for a function body holding a three-field
initializer (translate.rs `AstExpr::Init`): the flattened field moves
are chained by `Stmt::from` into a *right-nested* `Seq`
(`Seq(m0, Some(Seq(m1, Some m2)))`), wrapped in an `ESeq` whose payload
is the base offset -- the shape `canonicalize` receives for such a
well-typed program. -/
def initChainIR : List KStmt :=
  [KStmt.SLabel "main",
   KStmt.Move (KExpr.Temp "T0")
     (KExpr.ESeq
       (KStmt.Seq
         (KStmt.Move
           (KExpr.Mem (KExpr.Binary BinOp.Plus (KExpr.Temp "x29")
             (KExpr.ConstInt (-24))))
           (KExpr.ConstInt 1))
         (some (KStmt.Seq
           (KStmt.Move
             (KExpr.Mem (KExpr.Binary BinOp.Plus (KExpr.Temp "x29")
               (KExpr.ConstInt (-16))))
             (KExpr.ConstInt 2))
           (some (KStmt.Move
             (KExpr.Mem (KExpr.Binary BinOp.Plus (KExpr.Temp "x29")
               (KExpr.ConstInt (-8))))
             (KExpr.ConstInt 3))))))
       (KExpr.ConstInt (-8)) 0),
   KStmt.Jump "main.epilogue"]

/-! ## Copying-GC model (crates/runtime/src/alloc.rs `Allocator::gc`)

Memory is a function from byte addresses to 64-bit cell words; all
runtime accesses are whole cells at 8-byte-aligned addresses.  Descriptor
strings live inside the leading cells of their object, packed
little-endian, and are read back byte by byte as `CStr::from_ptr` does. -/

/-- Store one cell. -/
def writeCell (mem : Nat → Nat) (addr v : Nat) : Nat → Nat :=
  fun x => if x = addr then v else mem x

/-- The byte at address `a`, extracted from its containing cell
(little-endian). -/
def byteAt (mem : Nat → Nat) (a : Nat) : Nat :=
  mem (a - a % 8) / 256 ^ (a % 8) % 256

/-- `read_string` (NUL-terminated byte scan; the source scans without
bound, hence the fuel). -/
def readStringBytes (mem : Nat → Nat) : Nat → Nat → List Nat
  | _, 0 => []
  | ptr, fuel + 1 =>
    let b := byteAt mem ptr
    if b = 0 then [] else b :: readStringBytes mem (ptr + 1) fuel

/-- The collector's working state: from-space cell memory and allocation
list, the to-space bump pointer, and the `allocations` / `forwarded` /
`children` accumulators of `Allocator::gc`. -/
structure GcState where
  mem : Nat → Nat
  allocations : List Nat
  scratchNext : Nat
  newAllocations : List Nat
  forwarded : List (Nat × Nat)
  children : List (Nat × List Nat)

/-- `Allocator::copy_array`: if the descriptor at `ptr` parses as a
length, allocate `len + ARRAY_METADATA_FIELDS` cells in to-space, copy
cells at offsets `0..=len`, rewrite the from-space field that referenced
the array, and record the new array in the new allocation list. -/
def copy_array (sfuel : Nat) (ptr currentValuePtr : Nat) (st : GcState) :
    GcState :=
  let lenStr := readStringBytes st.mem ptr sfuel
  match parseUsize lenStr with
  | some len =>
    let newArr := st.scratchNext
    let st1 := { st with
      scratchNext := st.scratchNext + 8 * (len + ARRAY_METADATA_FIELDS) }
    let st2 := (List.range (len + 1)).foldl
      (fun acc i =>
        { acc with
          mem := writeCell acc.mem (newArr + 8 * i) (acc.mem (ptr + 8 * i)) })
      st1
    let st3 := { st2 with mem := writeCell st2.mem currentValuePtr newArr }
    { st3 with newAllocations := st3.newAllocations ++ [newArr] }
  | none => st

/-- `Allocator::copy_fields`: copy `count` cells of `class` into
`new_region`; forward any field holding a live array first; record each
field whose descriptor byte (at `n - CLASS_METADATA_FIELDS`, for
`n > 1`) is `'p'` (112) in the children map, keyed by the field's
(possibly array-forwarded) value.  The children map reuses the
entry-append shape of `adjAdd` (`HashMap::entry(..).or_default().push`). -/
def copy_fields (descriptor : List Nat) (count : Nat)
    (cls new_region : Nat) (sfuel : Nat) (st : GcState) : GcState :=
  (List.range count).foldl
    (fun acc n =>
      let offset := 8 * n
      let currentValuePtr := cls + offset
      let current_value := acc.mem currentValuePtr
      let acc1 :=
        if acc.allocations.contains current_value then
          copy_array sfuel current_value currentValuePtr acc
        else acc
      let current_value1 := acc1.mem currentValuePtr
      let acc2 := { acc1 with
        mem := writeCell acc1.mem (new_region + offset) current_value1 }
      if 1 < n ∧ descriptor.getD (n - CLASS_METADATA_FIELDS) 0 = 112 then
        { acc2 with
          children := adjAdd acc2.children current_value1 (new_region + offset) }
      else acc2)
    st

/-- `Allocator::forward_child_fields`: for every *stack-reachable* class,
write its forwarded address into every recorded child slot keyed by it.
(The source `unwrap`s the forwarding entry; a missing entry — impossible
for a class that was just forwarded — is modelled as a skip.) -/
def fcfStep (children : List (Nat × List Nat)) (forwarded : List (Nat × Nat))
    (m : Nat → Nat) (rc : Nat × Nat) : Nat → Nat :=
  match List.lookup rc.2 children with
  | some fields =>
    match List.lookup rc.2 forwarded with
    | some ars => fields.foldl (fun m2 slot => writeCell m2 slot ars) m
    | none => m
  | none => m

def forward_child_fields (reach : List (Nat × Nat))
    (children : List (Nat × List Nat)) (forwarded : List (Nat × Nat))
    (mem : Nat → Nat) : Nat → Nat :=
  reach.foldl (fcfStep children forwarded) mem

/-- `Allocator::gc` (after the frame adjustment `fp := frame.ptr - |size|`):
scan the stack, forward each reachable *class* (arrays on the stack are
skipped), rewrite root slots, then fix child pointers and swap the
allocation list for the new one. -/
def gcRun (fp sp : Nat) (sfuel : Nat) (st0 : GcState) : GcState :=
  let reach := reachable fp sp st0.mem st0.allocations
  let st1 := reach.foldl
    (fun acc lc =>
      let descriptor := readStringBytes acc.mem lc.2 sfuel
      if (parseUsize descriptor).isSome then acc
      else
        match List.lookup lc.2 acc.forwarded with
        | some fwd => { acc with mem := writeCell acc.mem lc.1 fwd }
        | none =>
          let count := descriptor.length + CLASS_METADATA_FIELDS
          let new_region := acc.scratchNext
          let acc1 := { acc with
            scratchNext := acc.scratchNext + 8 * count,
            newAllocations := acc.newAllocations ++ [new_region] }
          let acc2 := copy_fields descriptor count lc.2 new_region sfuel acc1
          let acc3 := { acc2 with
            forwarded := acc2.forwarded ++ [(lc.2, new_region)] }
          { acc3 with mem := writeCell acc3.mem lc.1 new_region })
    st0
  { st1 with
    mem := forward_child_fields reach st1.children st1.forwarded st1.mem,
    allocations := st1.newAllocations }

/-- Scenario heap for the GC claims: class A at 128 (descriptor "p",
field at 144 pointing to class B), class B at 64 (descriptor "i", scalar
field 7 at 80), one stack root at 1008 pointing to A.  To-space starts
at 512; the stack range scanned is `(1000, 1016]`. -/
def gcMem0 : Nat → Nat := fun a =>
  if a = 128 then 112
  else if a = 144 then 64
  else if a = 64 then 105
  else if a = 80 then 7
  else if a = 1008 then 128
  else 0

def gcState0 : GcState :=
  { mem := gcMem0, allocations := [128, 64], scratchNext := 512,
    newAllocations := [], forwarded := [], children := [] }

/-- The collector's result on the scenario state. -/
def gcResult2 : GcState := gcRun 1000 1016 64 gcState0

/-! ## Concrete instruction lists used in the analyses -/

/-- Instruction list with a *conditional* branch at position 1 whose target
label is at position 3 and whose next instruction (2) is not a label. -/
def instrs5 : List A64 :=
  [A64.Compare "T0" "T1",
   A64.Branch "L9" (some RelOp.Greater),
   A64.Move "T2" "#1",
   A64.Label "L9",
   A64.Ret]

/-- Straight-line list where instruction 2 (`add T1, T1, T2`) both uses and
defines `T1`, and instruction 1 defines only `T3`. -/
def instrs6 : List A64 :=
  [A64.Move "T1" "#1",
   A64.Move "T3" "#2",
   A64.Add "T1" "T1" "T2",
   A64.Ret]

/-- The CFG the source builds for `instrs6`. -/
def adj6 : List (Nat × List Nat) := (graphOf instrs6 16).getD []

/-! ## Theorems -/

/-- **C1** (code_bug evidence).  The descriptor-to-number helper
`bytes_to_num` does not compute the decimal value of digit strings of
length ≥ 3: on the ASCII digits of "100" it returns 20 (the fold weight
`(place * 10).max(1)` is 20, not 100, at the third digit), so
`init_array` on descriptor "100" allocates 21 cells where the spec's
N + 1 = 101; the GC's own array discriminator (`str::parse::<usize>`)
parses the same descriptor as 100, contradicting the allocation size. -/
theorem bytes_to_num_three_digit_bug :
    bytes_to_num [49, 48, 48] = 20 ∧
    decimalValue [49, 48, 48] = 100 ∧
    parseUsize [49, 48, 48] = some 100 ∧
    init_array_count [49, 48, 48] = 21 ∧
    decimalValue [49, 48, 48] + 1 = 101 ∧
    bytes_to_num [52, 50] = 42 := by
  decide

/-- **C3** (counterexample).  The root scan does *not* consider the first
8-byte-aligned slot of the range `[fp - |frame_size|, stack_base]`: with
the adjusted frame base 1000, stack base 1016, a live allocation 555
stored exactly at slot 1000, `Allocator::reachable` reports no roots at
all — the slot 1000 is skipped by the leading `skip(1)` of the scan. -/
theorem reachable_skips_first_slot :
    reachable 1000 1016 (fun a => if a = 1000 then 555 else 0) [555] = [] ∧
    (fun a => if a = 1000 then 555 else 0) 1000 = 555 ∧
    (555 ∈ [(555 : Nat)]) := by
  refine ⟨by decide, by decide, by decide⟩

/-- Membership in the scanned-slot list: exactly the addresses
`fp + 8k` for `k ≥ 1` that are at most `sp`. -/
theorem mem_scannedSlots (fp sp addr : Nat) :
    addr ∈ scannedSlots fp sp ↔ ∃ k, 1 ≤ k ∧ addr = fp + 8 * k ∧ addr ≤ sp := by
  unfold scannedSlots
  simp only [List.mem_map, List.mem_range]
  constructor
  · rintro ⟨i, hi, rfl⟩
    refine ⟨i + 1, by omega, rfl, ?_⟩
    have h8 : (0 : Nat) < 8 := by decide
    have : i + 1 ≤ (sp - fp) / 8 := by omega
    have := (Nat.le_div_iff_mul_le h8).mp this
    omega
  · rintro ⟨k, hk1, rfl, hle⟩
    refine ⟨k - 1, ?_, by omega⟩
    have h8 : (0 : Nat) < 8 := by decide
    have hmul : k * 8 ≤ sp - fp := by omega
    have := (Nat.le_div_iff_mul_le h8).mpr hmul
    omega

/-- **C2/C3 shared support**: membership characterization of
`Allocator::reachable` — the amended root-scan property.  A pair
`(src, v)` is reported iff `src` is one of the scanned slots `fp + 8k`
(`k ≥ 1`, `src ≤ sp`; the first slot of the claimed range is excluded),
the stored word is in the allocation list, and `v` is that word. -/
theorem reachable_characterization (fp sp : Nat) (mem : Nat → Nat)
    (allocations : List Nat) (src v : Nat) :
    (src, v) ∈ reachable fp sp mem allocations ↔
      (∃ k, 1 ≤ k ∧ src = fp + 8 * k ∧ src ≤ sp) ∧
        mem src ∈ allocations ∧ v = mem src := by
  unfold reachable
  simp only [List.mem_map, List.mem_filter]
  constructor
  · rintro ⟨s, ⟨hs, hc⟩, h⟩
    have h1 : s = src := congrArg Prod.fst h
    have h2 : mem s = v := congrArg Prod.snd h
    subst h1
    exact ⟨(mem_scannedSlots _ _ _).mp hs, by simpa using hc, h2.symm⟩
  · rintro ⟨hs, hc, rfl⟩
    exact ⟨src, ⟨(mem_scannedSlots fp sp src).mpr hs, by simpa using hc⟩, rfl⟩

/-- **C9** (counterexample).  When both allocation attempts fail, the
runtime error carried to the aborting `panic!` is
`"runtime: alloc: failed to allocate memory"`, not the claimed
`"alloc: failed to allocate memory"`. -/
theorem alloc_error_message_counterexample :
    (allocAttempt (fun _ : Unit => none) id false 0 () 0).1 =
      Except.error "runtime: alloc: failed to allocate memory" ∧
    "runtime: alloc: failed to allocate memory" ≠
      "alloc: failed to allocate memory" := by
  constructor
  · simp [allocAttempt]
  · decide

/-- **C9** (amended).  `Allocator::alloc` (with `KYANITE_GC_ALWAYS` unset):
(1) a successful first attempt returns it with no collection;
(2) on failure it runs one GC and retries exactly once, returning the
retry's result after that single collection;
(3) if the retry also fails it runs GC once more and aborts with the
message "runtime: alloc: failed to allocate memory" (two GCs in total). -/
theorem alloc_retry_behaviour {σ : Type} (tryAlloc : σ → Option (Nat × σ))
    (gcFn : σ → σ) (s : σ) :
    (∀ p s', tryAlloc s = some (p, s') →
      allocAttempt tryAlloc gcFn false 0 s 0 = (Except.ok p, s', 0)) ∧
    (tryAlloc s = none → ∀ p s', tryAlloc (gcFn s) = some (p, s') →
      allocAttempt tryAlloc gcFn false 0 s 0 = (Except.ok p, s', 1)) ∧
    (tryAlloc s = none → tryAlloc (gcFn s) = none →
      allocAttempt tryAlloc gcFn false 0 s 0 =
        (Except.error "runtime: alloc: failed to allocate memory",
          gcFn (gcFn s), 2)) := by
  refine ⟨?_, ?_, ?_⟩
  · intro p s' h
    unfold allocAttempt
    simp [h]
  · intro h0 p s' h1
    unfold allocAttempt
    simp only [if_false, Bool.false_eq_true, ite_false]
    rw [h0]
    unfold allocAttempt
    simp [h1]
  · intro h0 h1
    unfold allocAttempt
    simp only [if_false, Bool.false_eq_true, ite_false]
    rw [h0]
    unfold allocAttempt
    simp only [if_false, Bool.false_eq_true, ite_false]
    rw [h1]
    unfold allocAttempt
    simp

/-- **C9** witness: concrete run in which both attempts fail. -/
theorem alloc_retry_behaviour_witness :
    allocAttempt (fun _ : Unit => none) id false 0 () 0 =
      (Except.error "runtime: alloc: failed to allocate memory", (), 2) :=
  (alloc_retry_behaviour (fun _ : Unit => none) id ()).2.2 rfl rfl

/-! ### Association-list helper lemmas -/

theorem length_filter_pos_iff {α : Type} (l : List α) (p : α → Bool) :
    0 < (l.filter p).length ↔ ∃ a ∈ l, p a = true := by
  rw [List.length_pos]
  constructor
  · intro h
    match hf : l.filter p with
    | [] => exact absurd hf h
    | b :: bs =>
      have hb : b ∈ l.filter p := by rw [hf]; exact List.mem_cons_self b bs
      rw [List.mem_filter] at hb
      exact ⟨b, hb.1, hb.2⟩
  · rintro ⟨a, ha, hp⟩ hnil
    have : a ∈ l.filter p := List.mem_filter.mpr ⟨ha, hp⟩
    rw [hnil] at this
    exact absurd this (List.not_mem_nil a)

theorem lookup_some_mem {α β : Type} [BEq α] [LawfulBEq α]
    {l : List (α × β)} {k : α} {v : β}
    (h : List.lookup k l = some v) : (k, v) ∈ l := by
  induction l with
  | nil => simp [List.lookup] at h
  | cons hd tl ih =>
    rw [List.lookup] at h
    rcases hbeq : (k == hd.1) with _ | _
    · rw [hbeq] at h
      exact List.mem_cons_of_mem _ (ih h)
    · rw [hbeq] at h
      have hk : k = hd.1 := eq_of_beq hbeq
      have hhd : hd = (k, v) := by
        cases hd
        simp only [Option.some.injEq] at h
        simp only at hk
        simp [hk, h]
      rw [hhd]
      exact List.mem_cons_self _ _

theorem lookup_none_not_mem {α β : Type} [BEq α] [LawfulBEq α]
    {l : List (α × β)} {k : α}
    (h : List.lookup k l = none) (v : β) : (k, v) ∉ l := by
  intro hv
  induction l with
  | nil => simp at hv
  | cons hd tl ih =>
    rw [List.lookup] at h
    rcases List.mem_cons.mp hv with h1 | h1
    · rw [← h1] at h
      simp at h
    · rcases hbeq : (k == hd.1) with _ | _ <;> rw [hbeq] at h
      · exact ih h h1
      · exact Option.noConfusion h

theorem mem_lookup_of_keyNodup {α β : Type} [BEq α] [LawfulBEq α]
    {l : List (α × β)} (hnd : (l.map Prod.fst).Nodup)
    {k : α} {v : β} (h : (k, v) ∈ l) : List.lookup k l = some v := by
  induction l with
  | nil => simp at h
  | cons hd tl ih =>
    rw [List.map_cons, List.nodup_cons] at hnd
    rcases List.mem_cons.mp h with h1 | h1
    · rw [← h1, List.lookup]
      simp
    · rw [List.lookup]
      rcases hbeq : (k == hd.1) with _ | _
      · exact ih hnd.2 h1
      · exfalso
        have hk : k = hd.1 := eq_of_beq hbeq
        exact hnd.1 (hk ▸ List.mem_map_of_mem Prod.fst h1)

theorem keyNodup_eq {α β : Type} [BEq α] [LawfulBEq α]
    {l : List (α × β)} (hnd : (l.map Prod.fst).Nodup)
    {k : α} {v v' : β} (h1 : (k, v) ∈ l) (h2 : (k, v') ∈ l) : v = v' := by
  have e1 := mem_lookup_of_keyNodup hnd h1
  have e2 := mem_lookup_of_keyNodup hnd h2
  rw [e1] at e2
  exact Option.some.inj e2

/-! ### C5: fall-through removal in the CFG fix-up -/

/-- **C5** (counterexample).  `A64::jump()` is true for conditional
branches too, so `restore` removes the fall-through successor of the
conditional branch `b.gt L9` at position 1: the final graph maps 1 to
`[3]` only, although the claim says conditional transfers always keep
their fall-through successor 2. -/
theorem restore_drops_conditional_fallthrough :
    graphOf instrs5 16 = some [(0, [1]), (1, [3]), (3, [4]), (2, [3])] ∧
    A64.jump (A64.Branch "L9" (some RelOp.Greater)) = true ∧
    (List.lookup 1 [(0, [1]), (1, [3]), (3, [4]), (2, [3])]).getD [] = [3] := by
  refine ⟨by decide, rfl, by decide⟩

/-- **C5** (amended).  In the CFG fix-up `restore`, the fall-through
successor `i+1` is removed for *every* instruction with `jump() = true` —
that is, every `Branch` (conditional or unconditional) and `BranchLink` —
unless the next instruction's label equals the transfer target, in which
case it is re-appended; entries of non-transfer instructions are kept
unchanged. -/
theorem restore_fallthrough_policy (instrs : List A64)
    (adj : List (Nat × List Nat)) (i : Nat) (tos : List Nat) (instr : A64)
    (hmem : (i, tos) ∈ adj) (hi : instrs[i]? = some instr) :
    (∀ l r, A64.jump (A64.Branch l r) = true ∧
       A64.jump (A64.BranchLink l) = true) ∧
    (instr.jump = false → (i, tos) ∈ restore instrs adj) ∧
    (instr.jump = true → nextLabelMatches instrs i = true →
       (i, tos.filter (fun x => x ≠ i + 1) ++ [i + 1]) ∈ restore instrs adj) ∧
    (instr.jump = true → nextLabelMatches instrs i = false →
       (i, tos.filter (fun x => x ≠ i + 1)) ∈ restore instrs adj ∧
       i + 1 ∉ tos.filter (fun x => x ≠ i + 1)) := by
  refine ⟨fun l r => ⟨rfl, rfl⟩, ?_, ?_, ?_⟩
  · intro hj
    unfold restore
    refine List.mem_map.mpr ⟨(i, tos), hmem, ?_⟩
    simp [hi, hj]
  · intro hj hm
    unfold restore
    refine List.mem_map.mpr ⟨(i, tos), hmem, ?_⟩
    simp [hi, hj, hm]
  · intro hj hm
    constructor
    · unfold restore
      refine List.mem_map.mpr ⟨(i, tos), hmem, ?_⟩
      simp [hi, hj, hm]
    · intro hfm
      have := (List.mem_filter.mp hfm).2
      simp at this

/-- **C5** witness: the policy applied to the concrete conditional branch
of `instrs5`. -/
theorem restore_fallthrough_policy_witness :
    (1, [3]) ∈ restore instrs5 [(0, [1]), (1, [3, 2]), (3, [4]), (2, [3])] ∧
    2 ∉ [3] :=
  have h := restore_fallthrough_policy instrs5
    [(0, [1]), (1, [3, 2]), (3, [4]), (2, [3])] 1 [3, 2]
    (A64.Branch "L9" (some RelOp.Greater)) (by decide) (by decide)
  ⟨(h.2.2.2 rfl rfl).1, by decide⟩

/-! ### C10: irreflexivity and symmetry of the interference relation -/

/-- Unfolding of membership in one computed interference list. -/
theorem mem_interfListOf_iff (ranges : List (String × List Bool))
    (t : String) (r : List Bool) (b : String) :
    b ∈ interfListOf ranges t r ↔
      ∃ rb, (b, rb) ∈ ranges ∧ b ≠ t ∧
        ∃ x, x ∈ lines r ∧ x ∈ lines rb := by
  unfold interfListOf
  constructor
  · intro h
    rcases List.mem_map.mp h with ⟨o, ho, rfl⟩
    rcases List.mem_filter.mp ho with ⟨ho1, ho2⟩
    rcases List.mem_filter.mp ho1 with ⟨ho3, ho4⟩
    refine ⟨o.2, by simpa using ho3, by simpa using ho4, ?_⟩
    have := (length_filter_pos_iff _ _).mp (by simpa using ho2)
    rcases this with ⟨x, hx1, hx2⟩
    exact ⟨x, hx1, by simpa using hx2⟩
  · rintro ⟨rb, hmem, hne, x, hx1, hx2⟩
    refine List.mem_map.mpr ⟨(b, rb), ?_, rfl⟩
    refine List.mem_filter.mpr ⟨List.mem_filter.mpr ⟨hmem, by simpa using hne⟩, ?_⟩
    simp only [decide_eq_true_eq]
    exact (length_filter_pos_iff _ _).mpr ⟨x, hx1, by simpa using hx2⟩

/-- **C10**.  The interference relation computed by
`LiveRanges::interferences` is irreflexive (the `k != temp` filter) and,
for ranges with distinct keys, symmetric (line overlap is symmetric). -/
theorem interferences_irrefl_symm (ranges : List (String × List Bool))
    (hnd : (ranges.map Prod.fst).Nodup) :
    (∀ p ∈ interferences ranges, p.1 ∉ p.2) ∧
    (∀ a sa b sb, (a, sa) ∈ interferences ranges →
      (b, sb) ∈ interferences ranges → (b ∈ sa ↔ a ∈ sb)) := by
  constructor
  · intro p hp hmem
    rcases List.mem_map.mp hp with ⟨tr, _, rfl⟩
    rcases (mem_interfListOf_iff _ _ _ _).mp hmem with ⟨_, _, hne, _⟩
    exact hne rfl
  · intro a sa b sb ha hb
    rcases List.mem_map.mp ha with ⟨tra, htra, heqa⟩
    rcases List.mem_map.mp hb with ⟨trb, htrb, heqb⟩
    have ha1 : tra.1 = a := congrArg Prod.fst heqa
    have ha2 : sa = interfListOf ranges tra.1 tra.2 :=
      (congrArg Prod.snd heqa).symm
    have hb1 : trb.1 = b := congrArg Prod.fst heqb
    have hb2 : sb = interfListOf ranges trb.1 trb.2 :=
      (congrArg Prod.snd heqb).symm
    subst ha1
    subst hb1
    rw [ha2, hb2]
    constructor
    · intro h
      rcases (mem_interfListOf_iff _ _ _ _).mp h with ⟨rb, hrb, hne, x, hx1, hx2⟩
      have : rb = trb.2 := keyNodup_eq hnd hrb (by
        have : (trb.1, trb.2) ∈ ranges := by simpa using htrb
        exact this)
      subst this
      exact (mem_interfListOf_iff _ _ _ _).mpr
        ⟨tra.2, by simpa using htra, fun e => hne e.symm, x, hx2, hx1⟩
    · intro h
      rcases (mem_interfListOf_iff _ _ _ _).mp h with ⟨ra, hra, hne, x, hx1, hx2⟩
      have : ra = tra.2 := keyNodup_eq hnd hra (by
        have : (tra.1, tra.2) ∈ ranges := by simpa using htra
        exact this)
      subst this
      exact (mem_interfListOf_iff _ _ _ _).mpr
        ⟨trb.2, by simpa using htrb, fun e => hne e.symm, x, hx2, hx1⟩

/-! ### C6: liveness vectors vs. def-free paths -/

theorem getD_replicate_false (n k : Nat) :
    (List.replicate n false).getD k false = false := by
  rw [List.getD_eq_getElem?_getD]
  rcases Nat.lt_or_ge k n with h | h
  · rw [List.getElem?_replicate]
    simp [h]
  · rw [List.getElem?_eq_none (by simpa using h)]
    rfl

theorem getD_set_self (l : List Bool) (i : Nat) (h : i < l.length) :
    (l.set i true).getD i false = true := by
  rw [List.getD_eq_getElem?_getD, List.getElem?_set]
  simp [h]

theorem getD_set_true_cases (l : List Bool) (i k : Nat)
    (h : (l.set i true).getD k false = true) :
    k = i ∨ l.getD k false = true := by
  rw [List.getD_eq_getElem?_getD, List.getElem?_set] at h
  by_cases hik : i = k
  · exact Or.inl hik.symm
  · right
    rw [List.getD_eq_getElem?_getD]
    simpa [hik] using h

theorem getD_set_mono (l : List Bool) (i k : Nat)
    (h : l.getD k false = true) : (l.set i true).getD k false = true := by
  rw [List.getD_eq_getElem?_getD, List.getElem?_set]
  by_cases hik : i = k
  · subst hik
    by_cases hl : i < l.length
    · simp [hl]
    · exfalso
      rw [List.getD_eq_getElem?_getD,
        List.getElem?_eq_none (by omega)] at h
      exact Bool.noConfusion h
  · rw [if_neg hik, ← List.getD_eq_getElem?_getD]
    exact h

theorem mem_usesIdx_iff (instrs : List A64) (temp : String) (i : Nat) :
    i ∈ usesIdx instrs temp ↔ usesAt instrs i temp = true := by
  unfold usesIdx usesAt
  constructor
  · intro h
    rcases List.mem_map.mp h with ⟨p, hp, rfl⟩
    rcases List.mem_filter.mp hp with ⟨hp1, hp2⟩
    have hg := List.mem_enum_iff_get?.mp hp1
    rw [List.get?_eq_getElem?] at hg
    rw [hg]
    exact hp2
  · intro h
    match hi : instrs[i]? with
    | none => rw [hi] at h; exact Bool.noConfusion h
    | some instr =>
      rw [hi] at h
      refine List.mem_map.mpr ⟨(i, instr), List.mem_filter.mpr ⟨?_, h⟩, rfl⟩
      exact List.mem_enum_iff_get?.mpr (by rw [List.get?_eq_getElem?]; exact hi)

theorem mem_succsOf_of_predecessors {adj : List (Nat × List Nat)}
    (hnd : (adj.map Prod.fst).Nodup) {p cur : Nat}
    (h : p ∈ predecessors adj cur) : cur ∈ succsOf adj p := by
  unfold predecessors at h
  rcases List.mem_map.mp h with ⟨e, he, rfl⟩
  rcases List.mem_filter.mp he with ⟨he1, he2⟩
  unfold succsOf
  have : List.lookup e.1 adj = some e.2 := by
    have : (e.1, e.2) ∈ adj := by simpa using he1
    exact mem_lookup_of_keyNodup hnd this
  rw [this]
  simpa using he2

theorem mem_predecessors_of_succsOf {adj : List (Nat × List Nat)}
    {p cur : Nat} (h : cur ∈ succsOf adj p) : p ∈ predecessors adj cur := by
  unfold succsOf at h
  match hl : List.lookup p adj with
  | none => rw [hl] at h; exact absurd h (List.not_mem_nil cur)
  | some tos =>
    rw [hl] at h
    have hmem : (p, tos) ∈ adj := lookup_some_mem hl
    unfold predecessors
    refine List.mem_map.mpr ⟨(p, tos), List.mem_filter.mpr ⟨hmem, ?_⟩, rfl⟩
    simpa using h

theorem predecessors_key_mem {adj : List (Nat × List Nat)} {p cur : Nat}
    (h : p ∈ predecessors adj cur) : ∃ tos, (p, tos) ∈ adj := by
  unfold predecessors at h
  rcases List.mem_map.mp h with ⟨e, he, rfl⟩
  exact ⟨e.2, by simpa using (List.mem_filter.mp he).1⟩

theorem livenessLoop_length (instrs : List A64) (adj : List (Nat × List Nat))
    (temp : String) :
    ∀ fuel wl live live',
      livenessLoop instrs adj temp fuel wl live = some live' →
      live'.length = live.length := by
  intro fuel
  induction fuel with
  | zero => intro wl live live' h; exact Option.noConfusion h
  | succ fuel ih =>
    intro wl live live' h
    match wl with
    | [] =>
      rw [livenessLoop] at h
      rw [← Option.some.inj h]
    | cur :: rest =>
      rw [livenessLoop] at h
      by_cases hd : definesAt instrs cur temp = true
      · rw [if_pos hd] at h
        exact ih _ _ _ h
      · rw [if_neg hd] at h
        have := ih _ _ _ h
        rw [this, List.length_set]

theorem livenessLoop_mono (instrs : List A64) (adj : List (Nat × List Nat))
    (temp : String) :
    ∀ fuel wl live live',
      livenessLoop instrs adj temp fuel wl live = some live' →
      ∀ k, live.getD k false = true → live'.getD k false = true := by
  intro fuel
  induction fuel with
  | zero => intro wl live live' h; exact Option.noConfusion h
  | succ fuel ih =>
    intro wl live live' h k hk
    match wl with
    | [] =>
      rw [livenessLoop] at h
      rw [← Option.some.inj h]
      exact hk
    | cur :: rest =>
      rw [livenessLoop] at h
      by_cases hd : definesAt instrs cur temp = true
      · rw [if_pos hd] at h
        exact ih _ _ _ h k hk
      · rw [if_neg hd] at h
        exact ih _ _ _ h k (getD_set_mono _ _ _ hk)

theorem livenessLoop_sound (instrs : List A64) (adj : List (Nat × List Nat))
    (temp : String) (hnd : (adj.map Prod.fst).Nodup) :
    ∀ fuel wl live live',
      livenessLoop instrs adj temp fuel wl live = some live' →
      (∀ w ∈ wl, PushedOK instrs adj temp w) →
      (∀ k, live.getD k false = true →
        usesAt instrs k temp = true ∨ Propagates instrs adj temp k) →
      ∀ k, live'.getD k false = true →
        usesAt instrs k temp = true ∨ Propagates instrs adj temp k := by
  intro fuel
  induction fuel with
  | zero => intro wl live live' h; exact Option.noConfusion h
  | succ fuel ih =>
    intro wl live live' h hwl hlive
    match wl with
    | [] =>
      rw [livenessLoop] at h
      rw [← Option.some.inj h]
      exact hlive
    | cur :: rest =>
      rw [livenessLoop] at h
      by_cases hd : definesAt instrs cur temp = true
      · rw [if_pos hd] at h
        exact ih _ _ _ h (fun w hw => hwl w (List.mem_cons_of_mem _ hw)) hlive
      · rw [if_neg hd] at h
        have hdf : definesAt instrs cur temp = false := by
          simpa using hd
        have hcurProp : Propagates instrs adj temp cur := by
          rcases hwl cur (List.mem_cons_self _ _) with hu | ⟨j, hj, hpj⟩
          · exact Propagates.use cur hu hdf
          · exact Propagates.step cur j hdf hj hpj
        refine ih _ _ _ h ?_ ?_
        · intro w hw
          rcases List.mem_append.mp hw with hw | hw
          · exact hwl w (List.mem_cons_of_mem _ hw)
          · exact Or.inr ⟨cur, mem_succsOf_of_predecessors hnd hw, hcurProp⟩
        · intro k hk
          rcases getD_set_true_cases _ _ _ hk with rfl | hk
          · exact Or.inr hcurProp
          · exact hlive k hk

theorem livenessLoop_complete (instrs : List A64)
    (adj : List (Nat × List Nat)) (temp : String) :
    ∀ fuel wl live live',
      livenessLoop instrs adj temp fuel wl live = some live' →
      (∀ e ∈ adj, e.1 < live.length) →
      (∀ w ∈ wl, w < live.length) →
      ∀ w ∈ wl, ∀ k, PredPath instrs adj temp w k →
        live'.getD k false = true := by
  intro fuel
  induction fuel with
  | zero => intro wl live live' h; exact Option.noConfusion h
  | succ fuel ih =>
    intro wl live live' h hkey hwlt w hw k hpath
    match wl with
    | [] => exact absurd hw (List.not_mem_nil w)
    | cur :: rest =>
      rw [livenessLoop] at h
      by_cases hd : definesAt instrs cur temp = true
      · rw [if_pos hd] at h
        rcases List.mem_cons.mp hw with rfl | hw
        · exfalso
          cases hpath with
          | refl _ hdf => rw [hd] at hdf; exact Bool.noConfusion hdf
          | step _ _ _ hdf _ _ => rw [hd] at hdf; exact Bool.noConfusion hdf
        · exact ih _ _ _ h hkey
            (fun x hx => hwlt x (List.mem_cons_of_mem _ hx)) w hw k hpath
      · rw [if_neg hd] at h
        have hlen : ∀ e ∈ adj, e.1 < (live.set cur true).length := by
          intro e he; rw [List.length_set]; exact hkey e he
        have hwlt' : ∀ x ∈ rest ++ predecessors adj cur,
            x < (live.set cur true).length := by
          intro x hx
          rw [List.length_set]
          rcases List.mem_append.mp hx with hx | hx
          · exact hwlt x (List.mem_cons_of_mem _ hx)
          · rcases predecessors_key_mem hx with ⟨tos, htos⟩
            exact hkey (x, tos) htos
        rcases List.mem_cons.mp hw with rfl | hw
        · cases hpath with
          | refl _ hdf =>
            have hmark : (live.set w true).getD w false = true :=
              getD_set_self _ _ (hwlt w (List.mem_cons_self _ _))
            exact livenessLoop_mono instrs adj temp _ _ _ _ h w hmark
          | step _ p _ hdf hp hpk =>
            exact ih _ _ _ h hlen hwlt' p
              (List.mem_append.mpr (Or.inr hp)) k hpk
        · exact ih _ _ _ h hlen hwlt' w
            (List.mem_append.mpr (Or.inl hw)) k hpath

theorem sitesFold_mono (instrs : List A64) (adj : List (Nat × List Nat))
    (temp : String) (fuel : Nat) :
    ∀ (sites : List Nat) (live0 live' : List Bool),
      (sites.foldlM
        (fun live site =>
          livenessLoop instrs adj temp fuel [site] (live.set site true))
        live0) = some live' →
      ∀ k, live0.getD k false = true → live'.getD k false = true := by
  intro sites
  induction sites with
  | nil =>
    intro live0 live' h k hk
    rw [List.foldlM_nil] at h
    rw [← Option.some.inj h]
    exact hk
  | cons s rest ih =>
    intro live0 live' h k hk
    rw [List.foldlM_cons] at h
    rcases Option.bind_eq_some.mp h with ⟨live1, h1, h2⟩
    exact ih _ _ h2 k
      (livenessLoop_mono instrs adj temp _ _ _ _ h1 k (getD_set_mono _ _ _ hk))

theorem sitesFold_length (instrs : List A64) (adj : List (Nat × List Nat))
    (temp : String) (fuel : Nat) :
    ∀ (sites : List Nat) (live0 live' : List Bool),
      (sites.foldlM
        (fun live site =>
          livenessLoop instrs adj temp fuel [site] (live.set site true))
        live0) = some live' →
      live'.length = live0.length := by
  intro sites
  induction sites with
  | nil =>
    intro live0 live' h
    rw [List.foldlM_nil] at h
    rw [← Option.some.inj h]
  | cons s rest ih =>
    intro live0 live' h
    rw [List.foldlM_cons] at h
    rcases Option.bind_eq_some.mp h with ⟨live1, h1, h2⟩
    rw [ih _ _ h2, livenessLoop_length instrs adj temp _ _ _ _ h1,
      List.length_set]

theorem sitesFold_sound (instrs : List A64) (adj : List (Nat × List Nat))
    (temp : String) (fuel : Nat) (hnd : (adj.map Prod.fst).Nodup) :
    ∀ (sites : List Nat) (live0 live' : List Bool),
      (sites.foldlM
        (fun live site =>
          livenessLoop instrs adj temp fuel [site] (live.set site true))
        live0) = some live' →
      (∀ s ∈ sites, usesAt instrs s temp = true) →
      (∀ k, live0.getD k false = true →
        usesAt instrs k temp = true ∨ Propagates instrs adj temp k) →
      ∀ k, live'.getD k false = true →
        usesAt instrs k temp = true ∨ Propagates instrs adj temp k := by
  intro sites
  induction sites with
  | nil =>
    intro live0 live' h _ hlive
    rw [List.foldlM_nil] at h
    rw [← Option.some.inj h]
    exact hlive
  | cons s rest ih =>
    intro live0 live' h hs hlive
    rw [List.foldlM_cons] at h
    rcases Option.bind_eq_some.mp h with ⟨live1, h1, h2⟩
    refine ih _ _ h2 (fun x hx => hs x (List.mem_cons_of_mem _ hx)) ?_
    refine livenessLoop_sound instrs adj temp hnd _ _ _ _ h1 ?_ ?_
    · intro w hw
      rcases List.mem_cons.mp hw with rfl | hw
      · exact Or.inl (hs w (List.mem_cons_self _ _))
      · exact absurd hw (List.not_mem_nil w)
    · intro k hk
      rcases getD_set_true_cases _ _ _ hk with rfl | hk
      · exact Or.inl (hs k (List.mem_cons_self _ _))
      · exact hlive k hk

theorem sitesFold_complete (instrs : List A64) (adj : List (Nat × List Nat))
    (temp : String) (fuel : Nat) :
    ∀ (sites : List Nat) (live0 live' : List Bool),
      (sites.foldlM
        (fun live site =>
          livenessLoop instrs adj temp fuel [site] (live.set site true))
        live0) = some live' →
      (∀ e ∈ adj, e.1 < live0.length) →
      (∀ s ∈ sites, s < live0.length) →
      ∀ s ∈ sites, ∀ k,
        (k = s ∨ PredPath instrs adj temp s k) →
        live'.getD k false = true := by
  intro sites
  induction sites with
  | nil =>
    intro live0 live' _ _ _ s hs
    exact absurd hs (List.not_mem_nil s)
  | cons s0 rest ih =>
    intro live0 live' h hkey hslt s hs k hk
    rw [List.foldlM_cons] at h
    rcases Option.bind_eq_some.mp h with ⟨live1, h1, h2⟩
    have hlen1 : live1.length = live0.length := by
      rw [livenessLoop_length instrs adj temp _ _ _ _ h1, List.length_set]
    rcases List.mem_cons.mp hs with hseq | hs
    · have hslt0 : s0 < live0.length := hslt s0 (List.mem_cons_self _ _)
      rcases hk with hkeq | hpath
      · have hmark : (live0.set s0 true).getD s0 false = true :=
          getD_set_self _ _ hslt0
        rw [hkeq, hseq]
        exact sitesFold_mono instrs adj temp fuel _ _ _ h2 s0
          (livenessLoop_mono instrs adj temp _ _ _ _ h1 s0 hmark)
      · rw [hseq] at hpath
        have hm := livenessLoop_complete instrs adj temp _ _ _ _ h1
          (by intro e he; rw [List.length_set]; exact hkey e he)
          (by
            intro w hw
            rw [List.length_set]
            have hws : w = s0 := by
              rcases List.mem_cons.mp hw with h' | h'
              · exact h'
              · exact absurd h' (List.not_mem_nil w)
            rw [hws]
            exact hslt0)
          s0 (List.mem_cons_self _ _) k hpath
        exact sitesFold_mono instrs adj temp fuel _ _ _ h2 k hm
    · refine ih _ _ h2 ?_ ?_ s hs k hk
      · intro e he; rw [hlen1]; exact hkey e he
      · intro x hx; rw [hlen1]; exact hslt x (List.mem_cons_of_mem _ hx)

theorem predPath_snoc {instrs : List A64} {adj : List (Nat × List Nat)}
    {temp : String} {u j : Nat}
    (h : PredPath instrs adj temp u j) :
    ∀ i, i ∈ predecessors adj j → definesAt instrs i temp = false →
      PredPath instrs adj temp u i := by
  induction h with
  | refl w hw =>
    intro i hi hdi
    exact PredPath.step w i i hw hi (PredPath.refl i hdi)
  | step w p k hw hp _ ihp =>
    intro i hi hdi
    exact PredPath.step w p i hw hp (ihp i hi hdi)

theorem propagates_to_predPath {instrs : List A64}
    {adj : List (Nat × List Nat)} {temp : String} {i : Nat}
    (h : Propagates instrs adj temp i) :
    ∃ u, usesAt instrs u temp = true ∧ PredPath instrs adj temp u i := by
  induction h with
  | use i hu hdf => exact ⟨i, hu, PredPath.refl i hdf⟩
  | step i j hdf hj _ ih =>
    rcases ih with ⟨u, hu, hpp⟩
    exact ⟨u, hu, predPath_snoc hpp i (mem_predecessors_of_succsOf hj) hdf⟩

/-- **C6** (amended).  When `Graph::liveness` terminates, its vector is
true at `i` exactly when `i` itself uses `temp`, or there is a CFG path
from `i` to a use of `temp` on which *no* node — the final use included —
defines `temp`.  (This is strictly weaker than the claim's def-free-path
property: propagation stops at any use that also defines, such as
`add T1, T1, T2`.) -/
theorem liveness_characterization (instrs : List A64)
    (adj : List (Nat × List Nat)) (temp : String) (fuel : Nat)
    (live : List Bool)
    (hnd : (adj.map Prod.fst).Nodup)
    (hkeylt : ∀ e ∈ adj, e.1 < adj.length)
    (husel : ∀ i ∈ usesIdx instrs temp, i < adj.length)
    (h : liveness instrs adj temp fuel = some live) (i : Nat) :
    live.getD i false = true ↔
      usesAt instrs i temp = true ∨ Propagates instrs adj temp i := by
  unfold liveness at h
  constructor
  · intro hlive
    refine sitesFold_sound instrs adj temp fuel hnd _ _ _ h ?_ ?_ i hlive
    · intro s hs; exact (mem_usesIdx_iff instrs temp s).mp hs
    · intro k hk
      rw [getD_replicate_false] at hk
      exact Bool.noConfusion hk
  · intro hcase
    have hkey0 : ∀ e ∈ adj, e.1 < (List.replicate adj.length false).length := by
      intro e he; rw [List.length_replicate]; exact hkeylt e he
    have hs0 : ∀ s ∈ usesIdx instrs temp,
        s < (List.replicate adj.length false).length := by
      intro s hs; rw [List.length_replicate]; exact husel s hs
    rcases hcase with hu | hp
    · exact sitesFold_complete instrs adj temp fuel _ _ _ h hkey0 hs0 i
        ((mem_usesIdx_iff instrs temp i).mpr hu) i (Or.inl rfl)
    · rcases propagates_to_predPath hp with ⟨u, hu, hpp⟩
      exact sitesFold_complete instrs adj temp fuel _ _ _ h hkey0 hs0 u
        ((mem_usesIdx_iff instrs temp u).mpr hu) i (Or.inr hpp)

/-- **C6** witness: the characterization evaluated on `instrs6`. -/
theorem liveness_characterization_witness :
    ([false, false, true].getD 2 false = true ↔
      usesAt instrs6 2 "T1" = true ∨ Propagates instrs6 adj6 "T1" 2) :=
  liveness_characterization instrs6 adj6 "T1" 16 [false, false, true]
    (by decide) (by decide) (by decide) (by decide) 2

/-- **C6** (counterexample).  On `instrs6` the computed vector is
`[false, false, true]` for `T1`, yet there is a def-free path (in the
claim's sense) from position 1 to the use of `T1` at position 2: the
instruction at 1 does not define `T1` and the use site is its successor.
So `live[T1][1] = false` although the claimed path exists — the worklist
never propagates past a use that also defines the temporary. -/
theorem liveness_false_despite_use_path :
    liveness instrs6 adj6 "T1" 16 = some [false, false, true] ∧
    [false, false, true].getD 1 false = false ∧
    UsePath instrs6 adj6 "T1" 1 := by
  refine ⟨by decide, by decide, ?_⟩
  exact UsePath.step 1 2 (by decide) (by decide)
    (UsePath.use 2 (by decide))

/-- **C10** witness: concrete two-temporary ranges, both live at line 0. -/
theorem interferences_irrefl_symm_witness :
    (∀ p ∈ interferences [("T0", [true]), ("T1", [true])], p.1 ∉ p.2) ∧
    (∀ a sa b sb,
      (a, sa) ∈ interferences [("T0", [true]), ("T1", [true])] →
      (b, sb) ∈ interferences [("T0", [true]), ("T1", [true])] →
      (b ∈ sa ↔ a ∈ sb)) :=
  interferences_irrefl_symm [("T0", [true]), ("T1", [true])] (by decide)

/-! ### C7: correctness of the graph colouring -/

theorem mem_lines_iff (range : List Bool) (x : Nat) :
    x ∈ lines range ↔ range.getD x false = true ∧ x < range.length := by
  unfold lines
  constructor
  · intro h
    rcases List.mem_map.mp h with ⟨p, hp, rfl⟩
    rcases List.mem_filter.mp hp with ⟨hp1, hp2⟩
    have hg := List.mem_enum_iff_get?.mp hp1
    rw [List.get?_eq_getElem?] at hg
    have hlt : p.1 < range.length := by
      by_contra hge
      rw [List.getElem?_eq_none (by omega)] at hg
      exact Option.noConfusion hg
    refine ⟨?_, hlt⟩
    rw [List.getD_eq_getElem?_getD, hg]
    simpa using hp2
  · rintro ⟨hget, hlt⟩
    have hsome : range[x]? = some true := by
      rw [List.getD_eq_getElem?_getD] at hget
      rw [List.getElem?_eq_getElem hlt] at hget ⊢
      simp only [Option.getD_some] at hget
      rw [hget]
    refine List.mem_map.mpr ⟨(x, true), List.mem_filter.mpr ⟨?_, by simp⟩, rfl⟩
    exact List.mem_enum_iff_get?.mpr (by rw [List.get?_eq_getElem?]; exact hsome)

theorem interferences_keys (ranges : List (String × List Bool)) :
    (interferences ranges).map Prod.fst = ranges.map Prod.fst := by
  unfold interferences
  rw [List.map_map]
  rfl

theorem interf_entry_inv {ranges : List (String × List Bool)} {a : String}
    {sa : List String} (h : (a, sa) ∈ interferences ranges) :
    ∃ ra, (a, ra) ∈ ranges ∧ sa = interfListOf ranges a ra := by
  rcases List.mem_map.mp h with ⟨tr, htr, heq⟩
  have h1 : tr.1 = a := congrArg Prod.fst heq
  have h2 : interfListOf ranges tr.1 tr.2 = sa := congrArg Prod.snd heq
  refine ⟨tr.2, ?_, ?_⟩
  · rw [← h1]; simpa using htr
  · rw [← h2, h1]

theorem interf_mem_symm (ranges : List (String × List Bool))
    (hnd : (ranges.map Prod.fst).Nodup)
    {a : String} {sa : List String} {b : String} {sb : List String}
    (ha : (a, sa) ∈ interferences ranges)
    (hb : (b, sb) ∈ interferences ranges) (h : b ∈ sa) : a ∈ sb := by
  rcases interf_entry_inv ha with ⟨ra, hra, rfl⟩
  rcases interf_entry_inv hb with ⟨rb', hrb', rfl⟩
  rcases (mem_interfListOf_iff _ _ _ _).mp h with ⟨rb, hrb, hne, x, hx1, hx2⟩
  have : rb = rb' := keyNodup_eq hnd hrb hrb'
  subst this
  exact (mem_interfListOf_iff _ _ _ _).mpr
    ⟨ra, hra, fun e => hne e.symm, x, hx2, hx1⟩

theorem assignTemp_spec (interf : List (String × List String))
    (regs : List String) (colors colors' : List (String × String))
    (temp : String) (h : assignTemp interf regs colors temp = some colors') :
    ((List.lookup temp colors).isSome ∧ colors' = colors) ∨
    (List.lookup temp colors = none ∧
      ∃ neighbors r, List.lookup temp interf = some neighbors ∧
        List.find?
          (fun x =>
            !((neighbors.map (fun t => List.lookup t colors)).contains
              (some x))) regs = some r ∧
        colors' = colors ++ [(temp, r)]) := by
  unfold assignTemp at h
  by_cases hg : (List.lookup temp colors).isSome
  · rw [if_pos hg] at h
    exact Or.inl ⟨hg, (Option.some.inj h).symm⟩
  · rw [if_neg hg] at h
    refine Or.inr ⟨Option.not_isSome_iff_eq_none.mp hg, ?_⟩
    match hn : List.lookup temp interf with
    | none =>
      rw [hn] at h
      exact Option.noConfusion h
    | some neighbors =>
      rw [hn] at h
      simp only at h
      match hf : List.find?
          (fun x =>
            !((neighbors.map (fun t => List.lookup t colors)).contains
              (some x))) regs with
      | none =>
        rw [hf] at h
        exact Option.noConfusion h
      | some r =>
        rw [hf] at h
        exact ⟨neighbors, r, rfl, hf, (Option.some.inj h).symm⟩

theorem assignTemp_keeps {interf : List (String × List String)}
    {regs : List String} {colors colors' : List (String × String)}
    {temp : String} (h : assignTemp interf regs colors temp = some colors')
    {t c : String} (hc : List.lookup t colors = some c) :
    List.lookup t colors' = some c := by
  rcases assignTemp_spec interf regs colors colors' temp h with
    ⟨_, rfl⟩ | ⟨_, neighbors, r, _, _, rfl⟩
  · exact hc
  · rw [List.lookup_append, hc]
    rfl

theorem assignTemp_assigns {interf : List (String × List String)}
    {regs : List String} {colors colors' : List (String × String)}
    {temp : String} (h : assignTemp interf regs colors temp = some colors') :
    (List.lookup temp colors').isSome := by
  rcases assignTemp_spec interf regs colors colors' temp h with
    ⟨hs, rfl⟩ | ⟨hnone, neighbors, r, _, _, rfl⟩
  · exact hs
  · rw [List.lookup_append, hnone, Option.none_or]
    simp [List.lookup]

theorem assignTemp_inv {ranges : List (String × List Bool)}
    {regs : List String} {colors colors' : List (String × String)}
    {temp : String} (hnd : (ranges.map Prod.fst).Nodup)
    (hinv : ColorsInv ranges regs colors)
    (h : assignTemp (interferences ranges) regs colors temp = some colors') :
    ColorsInv ranges regs colors' := by
  rcases assignTemp_spec _ regs colors colors' temp h with
    ⟨_, rfl⟩ | ⟨hnone, neighbors, r, hn, hf, rfl⟩
  · exact hinv
  rcases hinv with ⟨hkeys, hvalid, hdist⟩
  have hndInterf : ((interferences ranges).map Prod.fst).Nodup := by
    rw [interferences_keys]; exact hnd
  have htempNotKey : temp ∉ colors.map Prod.fst := by
    intro hk
    rcases List.mem_map.mp hk with ⟨e, he, rfl⟩
    exact lookup_none_not_mem hnone e.2 (by simpa using he)
  have hrmem : r ∈ regs := List.mem_of_find?_eq_some hf
  have hrfree : ∀ u cu, u ∈ neighbors → List.lookup u colors = some cu →
      r ≠ cu := by
    intro u cu hu hcu heq
    have hp := List.find?_some hf
    rw [Bool.not_eq_eq_eq_not, Bool.not_true] at hp
    have : (some r) ∈ neighbors.map (fun t => List.lookup t colors) := by
      refine List.mem_map.mpr ⟨u, hu, ?_⟩
      rw [hcu, heq]
    rw [← List.elem_iff] at this
    rw [List.contains] at hp
    rw [this] at hp
    exact Bool.noConfusion hp
  -- a lookup in the extended list is an old entry or the new pair
  have hsplit : ∀ t c, List.lookup t (colors ++ [(temp, r)]) = some c →
      List.lookup t colors = some c ∨ (t = temp ∧ c = r) := by
    intro t c hc
    rw [List.lookup_append] at hc
    match ho : List.lookup t colors with
    | some c0 =>
      rw [ho] at hc
      have hc2 : some c0 = some c := hc
      exact Or.inl hc2
    | none =>
      rw [ho, Option.none_or] at hc
      rw [List.lookup] at hc
      rcases hbeq : (t == temp) with _ | _ <;> rw [hbeq] at hc
      · exact Option.noConfusion hc
      · exact Or.inr ⟨eq_of_beq hbeq, (Option.some.inj hc).symm⟩
  refine ⟨?_, ?_, ?_⟩
  · rw [List.map_append, List.nodup_append]
    refine ⟨hkeys, List.nodup_singleton _, ?_⟩
    intro x hx hx1
    simp only [List.map_cons, List.map_nil, List.mem_singleton] at hx1
    rw [hx1] at hx
    exact htempNotKey hx
  · intro t c hc
    rcases hsplit t c hc with hold | ⟨_, rfl⟩
    · exact hvalid t c hold
    · exact hrmem
  · intro a sa b ca cb hsa hbsa hca hcb
    -- pin the entry of `temp` in the interference list
    have hTempEntry : ∀ s, (temp, s) ∈ interferences ranges → s = neighbors := by
      intro s hs
      have := mem_lookup_of_keyNodup hndInterf hs
      rw [hn] at this
      exact (Option.some.inj this).symm
    rcases hsplit a ca hca with hba | ⟨rfl, rfl⟩ <;>
      rcases hsplit b cb hcb with hbb | hbnew
    · exact hdist a sa b ca cb hsa hbsa hba hbb
    · -- b is the new assignment: b = temp, cb = r
      rcases hbnew with ⟨rfl, rfl⟩
      -- temp ∈ sa with (a, sa); by symmetry a ∈ neighbors
      have hbEntry : ∃ st, (b, st) ∈ interferences ranges := by
        rcases interf_entry_inv hsa with ⟨ra, _, rfl⟩
        rcases (mem_interfListOf_iff _ _ _ _).mp hbsa with ⟨rb, hrb, _, _⟩
        exact ⟨interfListOf ranges b rb, List.mem_map.mpr ⟨(b, rb), hrb, rfl⟩⟩
      rcases hbEntry with ⟨st, hst⟩
      have haIn : a ∈ st := interf_mem_symm ranges hnd hsa hst hbsa
      have hstn : st = neighbors := hTempEntry st hst
      rw [hstn] at haIn
      exact fun e => hrfree a ca haIn hba e.symm
    · -- a is the new assignment: a = temp, ca = r; b an old entry
      have hsan : sa = neighbors := hTempEntry sa hsa
      rw [hsan] at hbsa
      exact hrfree b cb hbsa hbb
    · -- both new: a = b = temp, contradiction with irreflexivity
      rcases hbnew with ⟨rfl, rfl⟩
      exfalso
      rcases interf_entry_inv hsa with ⟨ra, _, hsaEq⟩
      rw [hsaEq] at hbsa
      rcases (mem_interfListOf_iff _ _ _ _).mp hbsa with ⟨_, _, hne, _⟩
      exact hne rfl

theorem assignFold_keeps (interf : List (String × List String))
    (regs : List String) :
    ∀ (ts : List String) (colors colors' : List (String × String)),
      List.foldlM (assignTemp interf regs) colors ts = some colors' →
      ∀ t c, List.lookup t colors = some c →
        List.lookup t colors' = some c := by
  intro ts
  induction ts with
  | nil =>
    intro colors colors' h t c hc
    rw [List.foldlM_nil] at h
    rw [← Option.some.inj h]
    exact hc
  | cons s rest ih =>
    intro colors colors' h t c hc
    rw [List.foldlM_cons] at h
    rcases Option.bind_eq_some.mp h with ⟨c1, h1, h2⟩
    exact ih _ _ h2 t c (assignTemp_keeps h1 hc)

theorem assignFold_inv (ranges : List (String × List Bool))
    (regs : List String) (hnd : (ranges.map Prod.fst).Nodup) :
    ∀ (ts : List String) (colors colors' : List (String × String)),
      List.foldlM (assignTemp (interferences ranges) regs) colors ts =
        some colors' →
      ColorsInv ranges regs colors → ColorsInv ranges regs colors' := by
  intro ts
  induction ts with
  | nil =>
    intro colors colors' h hinv
    rw [List.foldlM_nil] at h
    rw [← Option.some.inj h]
    exact hinv
  | cons s rest ih =>
    intro colors colors' h hinv
    rw [List.foldlM_cons] at h
    rcases Option.bind_eq_some.mp h with ⟨c1, h1, h2⟩
    exact ih _ _ h2 (assignTemp_inv hnd hinv h1)

theorem assignFold_assigns (interf : List (String × List String))
    (regs : List String) :
    ∀ (ts : List String) (colors colors' : List (String × String)),
      List.foldlM (assignTemp interf regs) colors ts = some colors' →
      ∀ t ∈ ts, (List.lookup t colors').isSome := by
  intro ts
  induction ts with
  | nil =>
    intro colors colors' _ t ht
    exact absurd ht (List.not_mem_nil t)
  | cons s rest ih =>
    intro colors colors' h t ht
    rw [List.foldlM_cons] at h
    rcases Option.bind_eq_some.mp h with ⟨c1, h1, h2⟩
    rcases List.mem_cons.mp ht with hts | ht
    · have h1s := assignTemp_assigns h1
      rcases Option.isSome_iff_exists.mp h1s with ⟨c, hc⟩
      rw [hts]
      rw [assignFold_keeps interf regs _ _ _ h2 s c hc]
      rfl
    · exact ih _ _ h2 t ht

theorem mem_colorLine_list (ranges : List (String × List Bool))
    (graph : List (String × List String)) (line : Nat) (t : String)
    (rt : List Bool) (h : (t, rt) ∈ ranges)
    (hl : rt.getD line false = true) :
    t ∈ (sortByDegree graph
      ((ranges.filter (fun tr => tr.2.getD line false)).map Prod.fst)).reverse := by
  rw [List.mem_reverse]
  unfold sortByDegree
  rw [(List.mergeSort_perm _ _).mem_iff]
  exact List.mem_map.mpr ⟨(t, rt), List.mem_filter.mpr ⟨h, by simpa using hl⟩, rfl⟩

theorem colorFold_keeps (ranges : List (String × List Bool))
    (interf : List (String × List String)) (regs : List String) :
    ∀ (lgs : List (Nat × List (String × List String)))
      (colors colors' : List (String × String)),
      List.foldlM
        (fun colors lg => colorLine interf regs ranges lg.2 lg.1 colors)
        colors lgs = some colors' →
      ∀ t c, List.lookup t colors = some c →
        List.lookup t colors' = some c := by
  intro lgs
  induction lgs with
  | nil =>
    intro colors colors' h t c hc
    rw [List.foldlM_nil] at h
    rw [← Option.some.inj h]
    exact hc
  | cons lg rest ih =>
    intro colors colors' h t c hc
    rw [List.foldlM_cons] at h
    rcases Option.bind_eq_some.mp h with ⟨c1, h1, h2⟩
    exact ih _ _ h2 t c (assignFold_keeps interf regs _ _ _ h1 t c hc)

theorem colorFold_inv (ranges : List (String × List Bool))
    (regs : List String) (hnd : (ranges.map Prod.fst).Nodup) :
    ∀ (lgs : List (Nat × List (String × List String)))
      (colors colors' : List (String × String)),
      List.foldlM
        (fun colors lg =>
          colorLine (interferences ranges) regs ranges lg.2 lg.1 colors)
        colors lgs = some colors' →
      ColorsInv ranges regs colors → ColorsInv ranges regs colors' := by
  intro lgs
  induction lgs with
  | nil =>
    intro colors colors' h hinv
    rw [List.foldlM_nil] at h
    rw [← Option.some.inj h]
    exact hinv
  | cons lg rest ih =>
    intro colors colors' h hinv
    rw [List.foldlM_cons] at h
    rcases Option.bind_eq_some.mp h with ⟨c1, h1, h2⟩
    exact ih _ _ h2 (assignFold_inv ranges regs hnd _ _ _ h1 hinv)

theorem colorFold_assigns (ranges : List (String × List Bool))
    (interf : List (String × List String)) (regs : List String) :
    ∀ (lgs : List (Nat × List (String × List String)))
      (colors colors' : List (String × String)),
      List.foldlM
        (fun colors lg => colorLine interf regs ranges lg.2 lg.1 colors)
        colors lgs = some colors' →
      ∀ lg ∈ lgs, ∀ t rt, (t, rt) ∈ ranges → rt.getD lg.1 false = true →
        (List.lookup t colors').isSome := by
  intro lgs
  induction lgs with
  | nil =>
    intro colors colors' _ lg hlg
    exact absurd hlg (List.not_mem_nil lg)
  | cons lg0 rest ih =>
    intro colors colors' h lg hlg t rt hr hl
    rw [List.foldlM_cons] at h
    rcases Option.bind_eq_some.mp h with ⟨c1, h1, h2⟩
    rcases List.mem_cons.mp hlg with heq | hlg
    · have hmem : t ∈ (sortByDegree lg0.2
          ((ranges.filter (fun tr => tr.2.getD lg0.1 false)).map
            Prod.fst)).reverse := by
        refine mem_colorLine_list ranges lg0.2 lg0.1 t rt hr ?_
        rw [heq] at hl
        exact hl
      have hs := assignFold_assigns interf regs _ _ _ h1 t hmem
      rcases Option.isSome_iff_exists.mp hs with ⟨c, hc⟩
      rw [colorFold_keeps ranges interf regs _ _ _ h2 t c hc]
      rfl
    · exact ih _ _ h2 lg hlg t rt hr hl

/-- **C7**.  If `Color::color` completes on the interference map derived
from `ranges`, then every interfering pair receives two *different*
registers, both drawn from the supplied temporary (general-purpose)
register list, hence never from a disjoint reserved set. -/
theorem color_correct (ranges : List (String × List Bool))
    (liveGraphs : List (List (String × List String))) (regs : List String)
    (reserved : List String) (colors : List (String × String))
    (hnd : (ranges.map Prod.fst).Nodup)
    (hlen : ∀ tr ∈ ranges, tr.2.length ≤ liveGraphs.length)
    (hres : ∀ r ∈ regs, r ∉ reserved)
    (h : color ranges (interferences ranges) liveGraphs regs = some colors) :
    (∀ a sa b, (a, sa) ∈ interferences ranges → b ∈ sa →
      ∃ ca cb, List.lookup a colors = some ca ∧
        List.lookup b colors = some cb ∧ ca ≠ cb) ∧
    (∀ t c, List.lookup t colors = some c → c ∈ regs ∧ c ∉ reserved) := by
  unfold color at h
  have hinv0 : ColorsInv ranges regs [] := by
    refine ⟨List.nodup_nil, ?_, ?_⟩
    · intro t c hc
      exact Option.noConfusion hc
    · intro a sa b ca cb _ _ hca
      exact absurd hca (by simp [List.lookup])
  have hinv := colorFold_inv ranges regs hnd _ _ _ h hinv0
  rcases hinv with ⟨_, hvalid, hdist⟩
  constructor
  · intro a sa b hsa hbsa
    -- find the overlap line and show both a and b are processed there
    rcases interf_entry_inv hsa with ⟨ra, hra, hsaEq⟩
    have hbsa' := hbsa
    rw [hsaEq] at hbsa'
    rcases (mem_interfListOf_iff _ _ _ _).mp hbsa' with
      ⟨rb, hrb, hne, x, hxa, hxb⟩
    rcases (mem_lines_iff _ _).mp hxa with ⟨hra_t, hra_lt⟩
    rcases (mem_lines_iff _ _).mp hxb with ⟨hrb_t, _⟩
    have hxlt : x < liveGraphs.length :=
      Nat.lt_of_lt_of_le hra_lt (hlen (a, ra) hra)
    have hlgmem : (x, liveGraphs[x]) ∈ liveGraphs.enum := by
      refine List.mem_enum_iff_get?.mpr ?_
      rw [List.get?_eq_getElem?]
      exact List.getElem?_eq_getElem hxlt
    have hsa' := colorFold_assigns ranges (interferences ranges) regs _ _ _ h
      (x, liveGraphs[x]) hlgmem a ra hra hra_t
    have hsb' := colorFold_assigns ranges (interferences ranges) regs _ _ _ h
      (x, liveGraphs[x]) hlgmem b rb hrb hrb_t
    rcases Option.isSome_iff_exists.mp hsa' with ⟨ca, hca⟩
    rcases Option.isSome_iff_exists.mp hsb' with ⟨cb, hcb⟩
    exact ⟨ca, cb, hca, hcb, hdist a sa b ca cb hsa hbsa hca hcb⟩
  · intro t c hc
    exact ⟨hvalid t c hc, hres c (hvalid t c hc)⟩

unseal List.merge List.mergeSort in
/-- **C7** witness: two temporaries both live at line 0, coloured from a
two-register list disjoint from the reserved set `["x29"]`. -/
theorem color_correct_witness :
    (∀ a sa b,
      (a, sa) ∈ interferences [("T0", [true]), ("T1", [true])] → b ∈ sa →
      ∃ ca cb,
        List.lookup a [("T1", "x9"), ("T0", "x10")] = some ca ∧
        List.lookup b [("T1", "x9"), ("T0", "x10")] = some cb ∧ ca ≠ cb) ∧
    (∀ t c, List.lookup t [("T1", "x9"), ("T0", "x10")] = some c →
      c ∈ ["x9", "x10"] ∧ c ∉ ["x29"]) :=
  color_correct [("T0", [true]), ("T1", [true])] [[]] ["x9", "x10"] ["x29"]
    [("T1", "x9"), ("T0", "x10")] (by decide) (by decide) (by decide)
    (by decide)

/-! ### C4: constant conditions in `if`/`while` lowering -/

/-- **C4** (counterexample).  For the constant condition `0`, the lowered
`if` carries the CJump op `Cmp(Equal)` over the comparison `0 == 0`, so
the emitted conditional branch transfers to the *true* label `L0` (the
then-branch), not to the false branch as claimed. -/
theorem if_zero_takes_true_branch :
    (translateIfInt 0 "L0" "L1" "L2" KStmt.Noop KStmt.Noop).bind firstCJump =
      some (BinOp.Cmp RelOp.Equal, constCondition 0, "L0", "L1") ∧
    cjumpTarget (BinOp.Cmp RelOp.Equal, constCondition 0, "L0", "L1") =
      some "L0" ∧
    "L0" ≠ "L1" := by
  refine ⟨rfl, rfl, by decide⟩

/-- **C4** (amended).  An integer literal condition `i` of an `if` or
`while` is lowered to the comparison `i == 0` with `CJump` op
`Cmp(Equal)`, whose *true* target is the then-branch/loop-body label: the
branch transfers to the true label `t` exactly when `i = 0`, and to the
false label `f` (else / loop exit) when `i ≠ 0`. -/
theorem constant_condition_lowering (i : Int) (t f done test : String)
    (is otherwise body : KStmt) :
    (translateIfInt i t f done is otherwise).bind firstCJump =
      some (BinOp.Cmp RelOp.Equal, constCondition i, t, f) ∧
    (translateWhileInt i t f test body).bind firstCJump =
      some (BinOp.Cmp RelOp.Equal, constCondition i, t, f) ∧
    cjumpTarget (BinOp.Cmp RelOp.Equal, constCondition i, t, f) =
      some (if i = 0 then t else f) := by
  refine ⟨rfl, rfl, ?_⟩
  unfold cjumpTarget evalRel constCondition
  by_cases h : i = 0
  · simp [h]
  · simp [h]

/-! ### C2: child-pointer fix-up after copying -/

theorem foldWrite_val (slots : List Nat) (v : Nat) :
    ∀ (m : Nat → Nat) (addr : Nat),
      (slots.foldl (fun m2 slot => writeCell m2 slot v) m) addr =
        if addr ∈ slots then v else m addr := by
  induction slots with
  | nil => intro m addr; simp
  | cons s rest ih =>
    intro m addr
    rw [List.foldl_cons, ih]
    by_cases hmem : addr ∈ rest
    · simp [hmem]
    · by_cases has : addr = s
      · simp [hmem, has, writeCell]
      · simp [hmem, has, writeCell]

theorem fcf_untouched :
    ∀ (reach : List (Nat × Nat)) (children : List (Nat × List Nat))
      (forwarded : List (Nat × Nat)) (mem : Nat → Nat) (addr : Nat),
      (∀ cls, cls ∈ reach.map Prod.snd →
        ∀ fields, List.lookup cls children = some fields →
          List.lookup cls forwarded ≠ none → addr ∉ fields) →
      forward_child_fields reach children forwarded mem addr = mem addr := by
  intro reach
  induction reach with
  | nil => intro children forwarded mem addr _; rfl
  | cons rc rest ih =>
    intro children forwarded mem addr h
    have hstep : forward_child_fields (rc :: rest) children forwarded mem =
        forward_child_fields rest children forwarded
          (fcfStep children forwarded mem rc) := rfl
    rw [hstep]
    have hrest : ∀ cls, cls ∈ rest.map Prod.snd →
        ∀ fields, List.lookup cls children = some fields →
          List.lookup cls forwarded ≠ none → addr ∉ fields := by
      intro cls hcls
      exact h cls (by rw [List.map_cons]; exact List.mem_cons_of_mem _ hcls)
    rw [ih children forwarded _ addr hrest]
    unfold fcfStep
    match hch : List.lookup rc.2 children with
    | none => rfl
    | some fields =>
      match hfw : List.lookup rc.2 forwarded with
      | none => rfl
      | some ars =>
        show (List.foldl (fun m2 slot => writeCell m2 slot ars) mem fields) addr =
          mem addr
        rw [foldWrite_val]
        have : addr ∉ fields := by
          refine h rc.2 ?_ fields hch (by rw [hfw]; exact fun e => Option.noConfusion e)
          rw [List.map_cons]
          exact List.mem_cons_self _ _
        rw [if_neg this]

theorem fcf_rewrites :
    ∀ (reach : List (Nat × Nat)) (children : List (Nat × List Nat))
      (forwarded : List (Nat × Nat)) (mem : Nat → Nat) (addr : Nat)
      (cls : Nat) (fields : List Nat) (ars : Nat),
      cls ∈ reach.map Prod.snd →
      List.lookup cls children = some fields →
      List.lookup cls forwarded = some ars →
      addr ∈ fields →
      (∀ cls', cls' ∈ reach.map Prod.snd → cls' ≠ cls →
        ∀ fields', List.lookup cls' children = some fields' →
          List.lookup cls' forwarded ≠ none → addr ∉ fields') →
      forward_child_fields reach children forwarded mem addr = ars := by
  intro reach
  induction reach with
  | nil =>
    intro children forwarded mem addr cls fields ars hcls
    exact absurd hcls (by simp)
  | cons rc rest ih =>
    intro children forwarded mem addr cls fields ars hcls hch hfw haddr hothers
    have hstep : forward_child_fields (rc :: rest) children forwarded mem =
        forward_child_fields rest children forwarded
          (fcfStep children forwarded mem rc) := rfl
    rw [hstep]
    by_cases hin : cls ∈ rest.map Prod.snd
    · refine ih children forwarded _ addr cls fields ars hin hch hfw haddr ?_
      intro cls' hcls'
      exact hothers cls' (by rw [List.map_cons]; exact List.mem_cons_of_mem _ hcls')
    · have hceq : cls = rc.2 := by
        rw [List.map_cons] at hcls
        rcases List.mem_cons.mp hcls with h | h
        · exact h
        · exact absurd h hin
      have hrest : ∀ c, c ∈ rest.map Prod.snd →
          ∀ fs, List.lookup c children = some fs →
            List.lookup c forwarded ≠ none → addr ∉ fs := by
        intro c hc fs hcfs hcfw
        have hcne : c ≠ cls := fun e => hin (e ▸ hc)
        exact hothers c (by rw [List.map_cons]; exact List.mem_cons_of_mem _ hc)
          hcne fs hcfs hcfw
      rw [fcf_untouched rest children forwarded _ addr hrest]
      unfold fcfStep
      rw [← hceq, hch, hfw]
      show (List.foldl (fun m2 slot => writeCell m2 slot ars) mem fields) addr = ars
      rw [foldWrite_val, if_pos haddr]

/-- **C2** (amended).  `forward_child_fields` rewrites exactly those
recorded `'p'` child slots whose target pointer is itself among the
stack-derived `reachable` classes: such slots receive the target's
to-space address, while child slots whose target is *not* directly
reachable from a scanned stack slot — in particular classes reachable
only through class fields — are left holding their original (from-space)
value, and such targets are never copied. -/
theorem forward_child_fields_spec (reach : List (Nat × Nat))
    (children : List (Nat × List Nat)) (forwarded : List (Nat × Nat))
    (mem : Nat → Nat) (addr : Nat) :
    ((∀ cls, cls ∈ reach.map Prod.snd →
        ∀ fields, List.lookup cls children = some fields →
          List.lookup cls forwarded ≠ none → addr ∉ fields) →
      forward_child_fields reach children forwarded mem addr = mem addr) ∧
    (∀ cls fields ars,
      cls ∈ reach.map Prod.snd →
      List.lookup cls children = some fields →
      List.lookup cls forwarded = some ars →
      addr ∈ fields →
      (∀ cls', cls' ∈ reach.map Prod.snd → cls' ≠ cls →
        ∀ fields', List.lookup cls' children = some fields' →
          List.lookup cls' forwarded ≠ none → addr ∉ fields') →
      forward_child_fields reach children forwarded mem addr = ars) :=
  ⟨fcf_untouched reach children forwarded mem addr,
   fun cls fields ars hcls hch hfw haddr hothers =>
     fcf_rewrites reach children forwarded mem addr cls fields ars
       hcls hch hfw haddr hothers⟩

/-- **C2** witness: on the scenario data, the recorded slot 528 (child of
the field-only class B at 64) is untouched, while with B additionally
rooted on the stack and forwarded to 900 the same slot is rewritten. -/
theorem forward_child_fields_spec_witness :
    forward_child_fields [(1008, 128)] [(64, [528])] [(128, 512)]
      gcMem0 528 = gcMem0 528 ∧
    forward_child_fields [(1008, 128), (1010, 64)] [(64, [528])]
      [(128, 512), (64, 900)] gcMem0 528 = 900 := by
  constructor
  · refine (forward_child_fields_spec [(1008, 128)] [(64, [528])]
      [(128, 512)] gcMem0 528).1 ?_
    intro cls hcls fields hch _
    have hc : cls = 128 := by simpa using hcls
    rw [hc] at hch
    rw [show List.lookup (128 : Nat) [((64 : Nat), [(528 : Nat)])] = none
      from rfl] at hch
    exact Option.noConfusion hch
  · refine (forward_child_fields_spec [(1008, 128), (1010, 64)]
      [(64, [528])] [(128, 512), (64, 900)] gcMem0 528).2
      64 [528] 900 (by decide) rfl rfl (by decide) ?_
    intro cls' hcls' hne fields' hch' _
    have hc : cls' = 128 ∨ cls' = 64 := by simpa using hcls'
    rcases hc with rfl | rfl
    · rw [show List.lookup (128 : Nat) [((64 : Nat), [(528 : Nat)])] = none
        from rfl] at hch'
      exact Option.noConfusion hch'
    · exact absurd rfl hne

/-- **C2** (counterexample).  Running the collector on the scenario heap:
the slot 528 of the copied class A was recorded as a `'p'` child keyed by
B's address 64, yet after GC it still holds the from-space pointer 64 —
B was never forwarded (no forwarding entry) and never copied (the new
allocation list holds only A's copy), although B is a live class stored
in a `'p'` field of a reachable class.  The claim's "every recorded 'p'
slot is rewritten to the to-space address of its target" fails. -/
theorem gc_unreachable_child_not_forwarded :
    gcResult2.children = [(64, [528])] ∧
    gcResult2.mem 528 = 64 ∧
    List.lookup 64 gcResult2.forwarded = none ∧
    gcResult2.allocations = [512] ∧
    64 ∈ gcState0.allocations ∧
    readStringBytes gcState0.mem 64 64 = [105] := by
  refine ⟨by decide, by decide, by decide, by decide, by decide, by decide⟩

/-! ### C8: canonical form of the canonicaliser's output -/

mutual
theorem exprIds_nil_clean : ∀ e : KExpr, exprIds e = [] →
    exprNoSeq e = true ∧ exprSimple e = true ∧ eseqsOf e = []
  | KExpr.ConstInt _, _ => by
    simp [exprNoSeq, exprSimple, eseqsOf]
  | KExpr.Temp _, _ => by
    simp [exprNoSeq, exprSimple, eseqsOf]
  | KExpr.Binary op l r, h => by
    simp only [exprIds, List.append_eq_nil] at h
    have hl := exprIds_nil_clean l h.1
    have hr := exprIds_nil_clean r h.2
    simp [exprNoSeq, exprSimple, eseqsOf, hl.1, hl.2.1, hl.2.2,
      hr.1, hr.2.1, hr.2.2]
  | KExpr.Mem a, h => by
    simp only [exprIds] at h
    have ha := exprIds_nil_clean a h
    simp [exprNoSeq, exprSimple, eseqsOf, ha.1, ha.2.1, ha.2.2]
  | KExpr.CallE n args, h => by
    simp only [exprIds] at h
    have ha := exprIdsList_nil_clean args h
    simp [exprNoSeq, exprSimple, eseqsOf, ha.1, ha.2.1, ha.2.2]
  | KExpr.ESeq s e i, h => by
    simp [exprIds] at h
termination_by e => sizeOf e

theorem exprIdsList_nil_clean : ∀ es : List KExpr, exprIdsList es = [] →
    exprNoSeqList es = true ∧ exprSimpleList es = true ∧ eseqsOfList es = []
  | [], _ => by
    simp [exprNoSeqList, exprSimpleList, eseqsOfList]
  | e :: es, h => by
    simp only [exprIdsList, List.append_eq_nil] at h
    have h1 := exprIds_nil_clean e h.1
    have h2 := exprIdsList_nil_clean es h.2
    simp [exprNoSeqList, exprSimpleList, eseqsOfList, h1.1, h1.2.1, h1.2.2,
      h2.1, h2.2.1, h2.2.2]
termination_by es => sizeOf es
end

theorem stmtIds_nil_clean (s : KStmt) (h : stmtIds s = [])
    (hns : isSeqStmt s = false) :
    stmtNoSeq s = true ∧ stmtSimple s = true := by
  cases s with
  | Move t e =>
    simp only [stmtIds, List.append_eq_nil] at h
    have ht := exprIds_nil_clean t h.1
    have he := exprIds_nil_clean e h.2
    simp [stmtNoSeq, stmtSimple, ht.1, he.1, he.2.1, h.1]
  | SExpr e =>
    simp only [stmtIds] at h
    have he := exprIds_nil_clean e h
    simp [stmtNoSeq, stmtSimple, he.1, he.2.1]
  | CJump op c t f =>
    simp only [stmtIds] at h
    have hc := exprIds_nil_clean c h
    simp [stmtNoSeq, stmtSimple, hc.1, hc.2.1]
  | SLabel n => simp [stmtNoSeq, stmtSimple]
  | Jump l => simp [stmtNoSeq, stmtSimple]
  | Noop => simp [stmtNoSeq, stmtSimple]
  | Seq l r => simp [isSeqStmt] at hns

mutual
theorem replaceExpr_clean (sid : Nat) (rep : KExpr) :
    ∀ e : KExpr, exprIds e = [] → replaceExpr sid rep e = e
  | KExpr.ConstInt _, _ => by simp [replaceExpr]
  | KExpr.Temp _, _ => by simp [replaceExpr]
  | KExpr.Binary op l r, h => by
    simp only [exprIds, List.append_eq_nil] at h
    simp [replaceExpr, replaceExpr_clean sid rep l h.1,
      replaceExpr_clean sid rep r h.2]
  | KExpr.Mem a, h => by
    simp only [exprIds] at h
    simp [replaceExpr, replaceExpr_clean sid rep a h]
  | KExpr.CallE n args, h => by
    simp only [exprIds] at h
    simp [replaceExpr, replaceExprList_clean sid rep args h]
  | KExpr.ESeq s e i, h => by simp [exprIds] at h
termination_by e => sizeOf e

theorem replaceExprList_clean (sid : Nat) (rep : KExpr) :
    ∀ es : List KExpr, exprIdsList es = [] → replaceExprList sid rep es = es
  | [], _ => by simp [replaceExprList]
  | e :: es, h => by
    simp only [exprIdsList, List.append_eq_nil] at h
    simp [replaceExprList, replaceExpr_clean sid rep e h.1,
      replaceExprList_clean sid rep es h.2]
termination_by es => sizeOf es
end

theorem replaceStmt_clean (sid : Nat) (rep : KExpr) :
    ∀ s : KStmt, stmtIds s = [] → replaceStmt sid rep s = s
  | KStmt.Move t e, h => by
    simp only [stmtIds, List.append_eq_nil] at h
    simp [replaceStmt, replaceExpr_clean sid rep t h.1,
      replaceExpr_clean sid rep e h.2]
  | KStmt.SExpr e, h => by
    simp only [stmtIds] at h
    simp [replaceStmt, replaceExpr_clean sid rep e h]
  | KStmt.CJump op c t f, h => by
    simp only [stmtIds] at h
    simp [replaceStmt, replaceExpr_clean sid rep c h]
  | KStmt.Seq l (some rr), h => by
    simp only [stmtIds, List.append_eq_nil] at h
    simp [replaceStmt, replaceStmt_clean sid rep l h.1,
      replaceStmt_clean sid rep rr h.2]
  | KStmt.Seq l none, h => by
    simp only [stmtIds, List.append_nil] at h
    simp [replaceStmt, replaceStmt_clean sid rep l h]
  | KStmt.SLabel _, _ => by simp [replaceStmt]
  | KStmt.Jump _, _ => by simp [replaceStmt]
  | KStmt.Noop, _ => by simp [replaceStmt]
termination_by s => sizeOf s

mutual
theorem replaceExpr_step (sid : Nat) (rep : KExpr) (hrep : exprIds rep = []) :
    ∀ e : KExpr, exprSimple e = true →
      exprSimple (replaceExpr sid rep e) = true ∧
      ∀ x ∈ exprIds (replaceExpr sid rep e), x ∈ exprIds e ∧ x ≠ sid
  | KExpr.ConstInt _, _ => by
    refine ⟨by simp [replaceExpr, exprSimple], ?_⟩
    intro x hx
    simp [replaceExpr, exprIds] at hx
  | KExpr.Temp _, _ => by
    refine ⟨by simp [replaceExpr, exprSimple], ?_⟩
    intro x hx
    simp [replaceExpr, exprIds] at hx
  | KExpr.Binary op l r, h => by
    simp only [exprSimple, Bool.and_eq_true] at h
    have hl := replaceExpr_step sid rep hrep l h.1
    have hr := replaceExpr_step sid rep hrep r h.2
    refine ⟨by simp [replaceExpr, exprSimple, hl.1, hr.1], ?_⟩
    intro x hx
    simp only [replaceExpr, exprIds, List.mem_append] at hx
    simp only [exprIds, List.mem_append]
    rcases hx with hx | hx
    · rcases hl.2 x hx with ⟨h1, h2⟩
      exact ⟨Or.inl h1, h2⟩
    · rcases hr.2 x hx with ⟨h1, h2⟩
      exact ⟨Or.inr h1, h2⟩
  | KExpr.Mem a, h => by
    simp only [exprSimple] at h
    have ha := replaceExpr_step sid rep hrep a h
    refine ⟨by simp [replaceExpr, exprSimple, ha.1], ?_⟩
    intro x hx
    simp only [replaceExpr, exprIds] at hx
    simp only [exprIds]
    exact ha.2 x hx
  | KExpr.CallE n args, h => by
    simp only [exprSimple] at h
    have ha := replaceExprList_step sid rep hrep args h
    refine ⟨by simp [replaceExpr, exprSimple, ha.1], ?_⟩
    intro x hx
    simp only [replaceExpr, exprIds] at hx
    simp only [exprIds]
    exact ha.2 x hx
  | KExpr.ESeq s e i, h => by
    simp only [exprSimple, Bool.and_eq_true, decide_eq_true_eq] at h
    obtain ⟨⟨hs, hfp⟩, he⟩ := h
    by_cases hi : i = sid
    · have h1 : replaceExpr sid rep (KExpr.ESeq s e i) = rep := by
        simp [replaceExpr, hi]
      rw [h1]
      have hclean := exprIds_nil_clean rep hrep
      refine ⟨hclean.2.1, ?_⟩
      intro x hx
      rw [hrep] at hx
      exact absurd hx (List.not_mem_nil x)
    · have h1 : replaceExpr sid rep (KExpr.ESeq s e i) = KExpr.ESeq s e i := by
        rw [replaceExpr]
        rw [if_neg hi, replaceStmt_clean sid rep s hs,
          replaceExpr_clean sid rep e he]
      rw [h1]
      refine ⟨by simp [exprSimple, hs, hfp, he], ?_⟩
      intro x hx
      simp only [exprIds, hs, he, List.append_nil] at hx ⊢
      rcases List.mem_cons.mp hx with rfl | hx
      · exact ⟨List.mem_cons_self _ _, hi⟩
      · exact absurd hx (List.not_mem_nil x)
termination_by e => sizeOf e

theorem replaceExprList_step (sid : Nat) (rep : KExpr)
    (hrep : exprIds rep = []) :
    ∀ es : List KExpr, exprSimpleList es = true →
      exprSimpleList (replaceExprList sid rep es) = true ∧
      ∀ x ∈ exprIdsList (replaceExprList sid rep es),
        x ∈ exprIdsList es ∧ x ≠ sid
  | [], _ => by
    refine ⟨by simp [replaceExprList, exprSimpleList], ?_⟩
    intro x hx
    simp [replaceExprList, exprIdsList] at hx
  | e :: es, h => by
    simp only [exprSimpleList, Bool.and_eq_true] at h
    have h1 := replaceExpr_step sid rep hrep e h.1
    have h2 := replaceExprList_step sid rep hrep es h.2
    refine ⟨by simp [replaceExprList, exprSimpleList, h1.1, h2.1], ?_⟩
    intro x hx
    simp only [replaceExprList, exprIdsList, List.mem_append] at hx
    simp only [exprIdsList, List.mem_append]
    rcases hx with hx | hx
    · rcases h1.2 x hx with ⟨ha, hb⟩
      exact ⟨Or.inl ha, hb⟩
    · rcases h2.2 x hx with ⟨ha, hb⟩
      exact ⟨Or.inr ha, hb⟩
termination_by es => sizeOf es
end

theorem replaceStmt_step (sid : Nat) (rep : KExpr) (hrep : exprIds rep = []) :
    ∀ s : KStmt, stmtSimple s = true →
      stmtSimple (replaceStmt sid rep s) = true ∧
      isSeqStmt (replaceStmt sid rep s) = isSeqStmt s ∧
      ∀ x ∈ stmtIds (replaceStmt sid rep s), x ∈ stmtIds s ∧ x ≠ sid
  | KStmt.Move t e, h => by
    simp only [stmtSimple, Bool.and_eq_true, decide_eq_true_eq] at h
    have ht := replaceExpr_clean sid rep t h.1
    have he := replaceExpr_step sid rep hrep e h.2
    refine ⟨?_, ?_, ?_⟩
    · simp [replaceStmt, stmtSimple, ht, h.1, he.1]
    · simp [replaceStmt, isSeqStmt]
    · intro x hx
      simp only [replaceStmt, stmtIds, ht, h.1, List.mem_append,
        List.not_mem_nil, false_or] at hx
      simp only [stmtIds, h.1, List.nil_append]
      exact he.2 x hx
  | KStmt.SExpr e, h => by
    simp only [stmtSimple] at h
    have he := replaceExpr_step sid rep hrep e h
    refine ⟨by simp [replaceStmt, stmtSimple, he.1],
      by simp [replaceStmt, isSeqStmt], ?_⟩
    intro x hx
    simp only [replaceStmt, stmtIds] at hx
    simp only [stmtIds]
    exact he.2 x hx
  | KStmt.CJump op c t f, h => by
    simp only [stmtSimple] at h
    have hc := replaceExpr_step sid rep hrep c h
    refine ⟨by simp [replaceStmt, stmtSimple, hc.1],
      by simp [replaceStmt, isSeqStmt], ?_⟩
    intro x hx
    simp only [replaceStmt, stmtIds] at hx
    simp only [stmtIds]
    exact hc.2 x hx
  | KStmt.Seq l (some rr), h => by
    simp only [stmtSimple, Bool.and_eq_true] at h
    have hl := replaceStmt_step sid rep hrep l h.1
    have hr := replaceStmt_step sid rep hrep rr h.2
    refine ⟨by simp [replaceStmt, stmtSimple, hl.1, hr.1],
      by simp [replaceStmt, isSeqStmt], ?_⟩
    intro x hx
    simp only [replaceStmt, stmtIds, List.mem_append] at hx
    simp only [stmtIds, List.mem_append]
    rcases hx with hx | hx
    · rcases hl.2.2 x hx with ⟨ha, hb⟩
      exact ⟨Or.inl ha, hb⟩
    · rcases hr.2.2 x hx with ⟨ha, hb⟩
      exact ⟨Or.inr ha, hb⟩
  | KStmt.Seq l none, h => by
    simp only [stmtSimple] at h
    have hl := replaceStmt_step sid rep hrep l h
    refine ⟨by simp [replaceStmt, stmtSimple, hl.1],
      by simp [replaceStmt, isSeqStmt], ?_⟩
    intro x hx
    simp only [replaceStmt, stmtIds, List.append_nil] at hx
    simp only [stmtIds, List.append_nil]
    exact hl.2.2 x hx
  | KStmt.SLabel n, _ => by
    refine ⟨by simp [replaceStmt, stmtSimple],
      by simp [replaceStmt, isSeqStmt], ?_⟩
    intro x hx
    simp [replaceStmt, stmtIds] at hx
  | KStmt.Jump lb, _ => by
    refine ⟨by simp [replaceStmt, stmtSimple],
      by simp [replaceStmt, isSeqStmt], ?_⟩
    intro x hx
    simp [replaceStmt, stmtIds] at hx
  | KStmt.Noop, _ => by
    refine ⟨by simp [replaceStmt, stmtSimple],
      by simp [replaceStmt, isSeqStmt], ?_⟩
    intro x hx
    simp [replaceStmt, stmtIds] at hx
termination_by s => sizeOf s

theorem replaceFold_clean :
    ∀ (reps : List (Nat × KExpr)) (s : KStmt),
      stmtSimple s = true →
      (∀ r ∈ reps, exprIds r.2 = []) →
      (∀ x ∈ stmtIds s, x ∈ reps.map Prod.fst) →
      stmtIds (reps.foldl (fun cur r => replaceStmt r.1 r.2 cur) s) = [] ∧
      isSeqStmt (reps.foldl (fun cur r => replaceStmt r.1 r.2 cur) s) =
        isSeqStmt s := by
  intro reps
  induction reps with
  | nil =>
    intro s _ _ hids
    rw [List.foldl_nil]
    refine ⟨List.eq_nil_iff_forall_not_mem.mpr (fun x hx => ?_), rfl⟩
    have := hids x hx
    simp at this
  | cons r rest ih =>
    intro s hs hclean hids
    have hstep := replaceStmt_step r.1 r.2 (hclean r (List.mem_cons_self _ _)) s hs
    rw [List.foldl_cons]
    have hcover : ∀ x ∈ stmtIds (replaceStmt r.1 r.2 s),
        x ∈ rest.map Prod.fst := by
      intro x hx
      rcases hstep.2.2 x hx with ⟨hin, hne⟩
      have hmem := hids x hin
      rw [List.map_cons] at hmem
      rcases List.mem_cons.mp hmem with h | h
      · exact absurd h hne
      · exact h
    have hrec := ih (replaceStmt r.1 r.2 s) hstep.1
      (fun r2 hr2 => hclean r2 (List.mem_cons_of_mem _ hr2)) hcover
    exact ⟨hrec.1, by rw [hrec.2, hstep.2.1]⟩

theorem stmtIds_nil_eseqs : ∀ s : KStmt, stmtIds s = [] →
    eseqsOfStmt s = []
  | KStmt.Move t e, h => by
    simp only [stmtIds, List.append_eq_nil] at h
    simp [eseqsOfStmt, (exprIds_nil_clean t h.1).2.2,
      (exprIds_nil_clean e h.2).2.2]
  | KStmt.SExpr e, h => by
    simp only [stmtIds] at h
    simp [eseqsOfStmt, (exprIds_nil_clean e h).2.2]
  | KStmt.CJump op c t f, h => by
    simp only [stmtIds] at h
    simp [eseqsOfStmt, (exprIds_nil_clean c h).2.2]
  | KStmt.Seq l (some rr), h => by
    simp only [stmtIds, List.append_eq_nil] at h
    simp [eseqsOfStmt, stmtIds_nil_eseqs l h.1, stmtIds_nil_eseqs rr h.2]
  | KStmt.Seq l none, h => by
    simp only [stmtIds] at h
    simp [eseqsOfStmt, stmtIds_nil_eseqs l h]
  | KStmt.SLabel _, _ => by simp [eseqsOfStmt]
  | KStmt.Jump _, _ => by simp [eseqsOfStmt]
  | KStmt.Noop, _ => by simp [eseqsOfStmt]
termination_by s => sizeOf s

mutual
theorem eseqsOf_spec : ∀ e : KExpr, exprSimple e = true →
    (∀ E ∈ eseqsOf e, ∃ s p i, E = KExpr.ESeq s p i ∧ stmtIds s = [] ∧
      flatPiece s = true ∧ exprIds p = []) ∧
    (∀ x ∈ exprIds e, ∃ s p, KExpr.ESeq s p x ∈ eseqsOf e)
  | KExpr.ConstInt _, _ => by
    constructor
    · intro E hE; simp [eseqsOf] at hE
    · intro x hx; simp [exprIds] at hx
  | KExpr.Temp _, _ => by
    constructor
    · intro E hE; simp [eseqsOf] at hE
    · intro x hx; simp [exprIds] at hx
  | KExpr.Binary op l r, h => by
    simp only [exprSimple, Bool.and_eq_true] at h
    have hl := eseqsOf_spec l h.1
    have hr := eseqsOf_spec r h.2
    constructor
    · intro E hE
      simp only [eseqsOf, List.mem_append] at hE
      rcases hE with hE | hE
      · exact hl.1 E hE
      · exact hr.1 E hE
    · intro x hx
      simp only [exprIds, List.mem_append] at hx
      simp only [eseqsOf]
      rcases hx with hx | hx
      · rcases hl.2 x hx with ⟨s, p, hm⟩
        exact ⟨s, p, List.mem_append.mpr (Or.inl hm)⟩
      · rcases hr.2 x hx with ⟨s, p, hm⟩
        exact ⟨s, p, List.mem_append.mpr (Or.inr hm)⟩
  | KExpr.Mem a, h => by
    simp only [exprSimple] at h
    have ha := eseqsOf_spec a h
    constructor
    · intro E hE
      simp only [eseqsOf] at hE
      exact ha.1 E hE
    · intro x hx
      simp only [exprIds] at hx
      simp only [eseqsOf]
      exact ha.2 x hx
  | KExpr.CallE n args, h => by
    simp only [exprSimple] at h
    have ha := eseqsOfList_spec args h
    constructor
    · intro E hE
      simp only [eseqsOf] at hE
      exact ha.1 E hE
    · intro x hx
      simp only [exprIds] at hx
      simp only [eseqsOf]
      exact ha.2 x hx
  | KExpr.ESeq s e i, h => by
    simp only [exprSimple, Bool.and_eq_true, decide_eq_true_eq] at h
    obtain ⟨⟨hs, hfp⟩, he⟩ := h
    have hclean := exprIds_nil_clean e he
    have hse := stmtIds_nil_eseqs s hs
    constructor
    · intro E hE
      simp only [eseqsOf, hse, hclean.2.2, List.nil_append,
        List.mem_singleton] at hE
      exact ⟨s, e, i, hE, hs, hfp, he⟩
    · intro x hx
      simp only [exprIds, hs, he, List.append_nil] at hx
      rcases List.mem_cons.mp hx with rfl | hx
      · refine ⟨s, e, ?_⟩
        simp [eseqsOf, hse, hclean.2.2]
      · exact absurd hx (List.not_mem_nil x)
termination_by e => sizeOf e

theorem eseqsOfList_spec : ∀ es : List KExpr, exprSimpleList es = true →
    (∀ E ∈ eseqsOfList es, ∃ s p i, E = KExpr.ESeq s p i ∧ stmtIds s = [] ∧
      flatPiece s = true ∧ exprIds p = []) ∧
    (∀ x ∈ exprIdsList es, ∃ s p, KExpr.ESeq s p x ∈ eseqsOfList es)
  | [], _ => by
    constructor
    · intro E hE; simp [eseqsOfList] at hE
    · intro x hx; simp [exprIdsList] at hx
  | e :: es, h => by
    simp only [exprSimpleList, Bool.and_eq_true] at h
    have h1 := eseqsOf_spec e h.1
    have h2 := eseqsOfList_spec es h.2
    constructor
    · intro E hE
      simp only [eseqsOfList, List.mem_append] at hE
      rcases hE with hE | hE
      · exact h1.1 E hE
      · exact h2.1 E hE
    · intro x hx
      simp only [exprIdsList, List.mem_append] at hx
      simp only [eseqsOfList]
      rcases hx with hx | hx
      · rcases h1.2 x hx with ⟨s, p, hm⟩
        exact ⟨s, p, List.mem_append.mpr (Or.inl hm)⟩
      · rcases h2.2 x hx with ⟨s, p, hm⟩
        exact ⟨s, p, List.mem_append.mpr (Or.inr hm)⟩
termination_by es => sizeOf es
end

theorem flatPiece_seq_left : ∀ (l : KStmt) (r : Option KStmt),
    flatPiece (KStmt.Seq l r) = true → isSeqStmt l = false
  | KStmt.Seq _ _, none, h => by simp [flatPiece] at h
  | KStmt.Seq _ _, some _, h => by simp [flatPiece] at h
  | KStmt.Move _ _, _, _ => rfl
  | KStmt.SExpr _, _, _ => rfl
  | KStmt.SLabel _, _, _ => rfl
  | KStmt.Jump _, _, _ => rfl
  | KStmt.Noop, _, _ => rfl
  | KStmt.CJump _ _ _ _, _, _ => rfl

theorem flatPiece_seq_right : ∀ (l rr : KStmt),
    flatPiece (KStmt.Seq l (some rr)) = true → isSeqStmt rr = false
  | _, KStmt.Move _ _, _ => rfl
  | _, KStmt.SExpr _, _ => rfl
  | _, KStmt.SLabel _, _ => rfl
  | _, KStmt.Jump _, _ => rfl
  | _, KStmt.Noop, _ => rfl
  | _, KStmt.CJump _ _ _ _, _ => rfl
  | KStmt.Seq _ _, KStmt.Seq _ _, h => by simp [flatPiece] at h
  | KStmt.Move _ _, KStmt.Seq _ _, h => by simp [flatPiece] at h
  | KStmt.SExpr _, KStmt.Seq _ _, h => by simp [flatPiece] at h
  | KStmt.SLabel _, KStmt.Seq _ _, h => by simp [flatPiece] at h
  | KStmt.Jump _, KStmt.Seq _ _, h => by simp [flatPiece] at h
  | KStmt.Noop, KStmt.Seq _ _, h => by simp [flatPiece] at h
  | KStmt.CJump _ _ _ _, KStmt.Seq _ _, h => by simp [flatPiece] at h

theorem updateFold_spec :
    ∀ (es : List KExpr) (acc : List KStmt × List (Nat × KExpr)),
      (∀ E ∈ es, ∃ s p i, E = KExpr.ESeq s p i ∧ stmtIds s = [] ∧
        flatPiece s = true ∧ exprIds p = []) →
      ∃ newS newR,
        es.foldl updStep acc = (acc.1 ++ newS, acc.2 ++ newR) ∧
        (∀ t ∈ newS, stmtIds t = [] ∧ isSeqStmt t = false) ∧
        (∀ r ∈ newR, exprIds r.2 = []) ∧
        (∀ E ∈ es, ∀ s p i, E = KExpr.ESeq s p i → i ∈ newR.map Prod.fst) := by
  intro es
  induction es with
  | nil =>
    intro acc _
    refine ⟨[], [], by simp, ?_, ?_, ?_⟩
    · intro t ht; exact absurd ht (List.not_mem_nil t)
    · intro r hr; exact absurd hr (List.not_mem_nil r)
    · intro E hE; exact absurd hE (List.not_mem_nil E)
  | cons E rest ih =>
    intro acc hok
    rcases hok E (List.mem_cons_self _ _) with ⟨s, p, i, rfl, hs, hfp, hp⟩
    -- the pieces pushed for this ESeq
    have hpieces : ∃ pieces, updStep acc (KExpr.ESeq s p i) =
        (acc.1 ++ pieces, acc.2 ++ [(i, p)]) ∧
        ∀ t ∈ pieces, stmtIds t = [] ∧ isSeqStmt t = false := by
      match s, hs, hfp with
      | KStmt.Seq sl (some srr), hs, hfp =>
        refine ⟨[sl, srr], by simp [updStep], ?_⟩
        simp only [stmtIds, List.append_eq_nil] at hs
        intro t ht
        rcases List.mem_cons.mp ht with hteq | ht
        · rw [hteq]
          exact ⟨hs.1, flatPiece_seq_left sl (some srr) hfp⟩
        · rcases List.mem_cons.mp ht with hteq | ht
          · rw [hteq]
            exact ⟨hs.2, flatPiece_seq_right sl srr hfp⟩
          · exact absurd ht (List.not_mem_nil t)
      | KStmt.Seq sl none, hs, hfp =>
        refine ⟨[sl], by simp [updStep], ?_⟩
        simp only [stmtIds, List.append_nil] at hs
        intro t ht
        rcases List.mem_cons.mp ht with hteq | ht
        · rw [hteq]
          exact ⟨hs, flatPiece_seq_left sl none hfp⟩
        · exact absurd ht (List.not_mem_nil t)
      | KStmt.Move a b, hs, _ =>
        refine ⟨[KStmt.Move a b], by simp [updStep], ?_⟩
        intro t ht
        rcases List.mem_cons.mp ht with rfl | ht
        · exact ⟨hs, rfl⟩
        · exact absurd ht (List.not_mem_nil t)
      | KStmt.SExpr a, hs, _ =>
        refine ⟨[KStmt.SExpr a], by simp [updStep], ?_⟩
        intro t ht
        rcases List.mem_cons.mp ht with rfl | ht
        · exact ⟨hs, rfl⟩
        · exact absurd ht (List.not_mem_nil t)
      | KStmt.SLabel a, hs, _ =>
        refine ⟨[KStmt.SLabel a], by simp [updStep], ?_⟩
        intro t ht
        rcases List.mem_cons.mp ht with rfl | ht
        · exact ⟨hs, rfl⟩
        · exact absurd ht (List.not_mem_nil t)
      | KStmt.Jump a, hs, _ =>
        refine ⟨[KStmt.Jump a], by simp [updStep], ?_⟩
        intro t ht
        rcases List.mem_cons.mp ht with rfl | ht
        · exact ⟨hs, rfl⟩
        · exact absurd ht (List.not_mem_nil t)
      | KStmt.Noop, hs, _ =>
        refine ⟨[KStmt.Noop], by simp [updStep], ?_⟩
        intro t ht
        rcases List.mem_cons.mp ht with rfl | ht
        · exact ⟨hs, rfl⟩
        · exact absurd ht (List.not_mem_nil t)
      | KStmt.CJump a b c d, hs, _ =>
        refine ⟨[KStmt.CJump a b c d], by simp [updStep], ?_⟩
        intro t ht
        rcases List.mem_cons.mp ht with rfl | ht
        · exact ⟨hs, rfl⟩
        · exact absurd ht (List.not_mem_nil t)
    rcases hpieces with ⟨pieces, hstep, hpiecesOK⟩
    rcases ih (updStep acc (KExpr.ESeq s p i))
      (fun E2 hE2 => hok E2 (List.mem_cons_of_mem _ hE2)) with
      ⟨newS, newR, hfold, hnewS, hnewR, hcover⟩
    rw [hstep] at hfold
    refine ⟨pieces ++ newS, (i, p) :: newR, ?_, ?_, ?_, ?_⟩
    · rw [List.foldl_cons, hstep, hfold]
      simp [List.append_assoc]
    · intro t ht
      rcases List.mem_append.mp ht with ht | ht
      · exact hpiecesOK t ht
      · exact hnewS t ht
    · intro r hr
      rcases List.mem_cons.mp hr with rfl | hr
      · exact hp
      · exact hnewR r hr
    · intro E2 hE2 s2 p2 i2 hEq
      rcases List.mem_cons.mp hE2 with hE2eq | hE2
      · rw [hE2eq] at hEq
        injection hEq with h1 h2 h3
        rw [List.map_cons, ← h3]
        exact List.mem_cons_self _ _
      · rw [List.map_cons]
        exact List.mem_cons_of_mem _ (hcover E2 hE2 s2 p2 i2 hEq)

theorem update_spec (expr : KExpr) (ir0 : List KStmt)
    (reps0 : List (Nat × KExpr)) (h : exprSimple expr = true) :
    ∃ newS newR,
      update expr ir0 reps0 = (ir0 ++ newS, reps0 ++ newR) ∧
      (∀ t ∈ newS, stmtIds t = [] ∧ isSeqStmt t = false) ∧
      (∀ r ∈ newR, exprIds r.2 = []) ∧
      (∀ x ∈ exprIds expr, x ∈ newR.map Prod.fst) := by
  have hspec := eseqsOf_spec expr h
  have hlist : ∀ E ∈ (eseqsOf expr).reverse, ∃ s p i, E = KExpr.ESeq s p i ∧
      stmtIds s = [] ∧ flatPiece s = true ∧ exprIds p = [] := by
    intro E hE
    exact hspec.1 E (List.mem_reverse.mp hE)
  rcases updateFold_spec (eseqsOf expr).reverse (ir0, reps0) hlist with
    ⟨newS, newR, hfold, hS, hR, hcover⟩
  refine ⟨newS, newR, ?_, hS, hR, ?_⟩
  · unfold update
    exact hfold
  · intro x hx
    rcases hspec.2 x hx with ⟨s, p, hmem⟩
    exact hcover (KExpr.ESeq s p x) (List.mem_reverse.mpr hmem) s p x rfl

theorem extract_spec : ∀ (s : KStmt) (acc : List KStmt × List (Nat × KExpr)),
    stmtSimple s = true →
    ∃ newS newR,
      extract s acc = (acc.1 ++ newS, acc.2 ++ newR) ∧
      (∀ r ∈ newR, exprIds r.2 = []) ∧
      (∀ t ∈ newS, isSeqStmt t = false ∧ stmtSimple t = true ∧
        ∀ x ∈ stmtIds t, x ∈ newR.map Prod.fst)
  | KStmt.Seq l (some rr), acc, hs => by
    simp only [stmtSimple, Bool.and_eq_true] at hs
    rcases extract_spec l acc hs.1 with ⟨S1, R1, h1, hR1, hT1⟩
    rcases extract_spec rr (extract l acc) hs.2 with ⟨S2, R2, h2, hR2, hT2⟩
    rw [h1] at h2
    refine ⟨S1 ++ S2, R1 ++ R2, ?_, ?_, ?_⟩
    · have hdef : extract (KStmt.Seq l (some rr)) acc =
        extract rr (extract l acc) := rfl
      rw [hdef, h1, h2]
      simp [List.append_assoc]
    · intro r hr
      rcases List.mem_append.mp hr with hr | hr
      · exact hR1 r hr
      · exact hR2 r hr
    · intro t ht
      rcases List.mem_append.mp ht with ht | ht
      · rcases hT1 t ht with ⟨ha, hb, hc⟩
        refine ⟨ha, hb, fun x hx => ?_⟩
        rw [List.map_append]
        exact List.mem_append.mpr (Or.inl (hc x hx))
      · rcases hT2 t ht with ⟨ha, hb, hc⟩
        refine ⟨ha, hb, fun x hx => ?_⟩
        rw [List.map_append]
        exact List.mem_append.mpr (Or.inr (hc x hx))
  | KStmt.Seq l none, acc, hs => by
    simp only [stmtSimple] at hs
    rcases extract_spec l acc hs with ⟨S1, R1, h1, hR1, hT1⟩
    exact ⟨S1, R1, h1, hR1, hT1⟩
  | KStmt.Move t e, acc, hs => by
    simp only [stmtSimple, Bool.and_eq_true, decide_eq_true_eq] at hs
    rcases update_spec e acc.1 acc.2 hs.2 with ⟨uS, uR, hu, huS, huR, hcov⟩
    refine ⟨uS ++ [KStmt.Move t e], uR, ?_, huR, ?_⟩
    · have hdef : extract (KStmt.Move t e) acc =
        ((update e acc.1 acc.2).1 ++ [KStmt.Move t e],
         (update e acc.1 acc.2).2) := rfl
      rw [hdef, hu]
      simp [List.append_assoc]
    · intro t2 ht2
      rcases List.mem_append.mp ht2 with ht2 | ht2
      · rcases huS t2 ht2 with ⟨hids, hseq⟩
        have hcl := stmtIds_nil_clean t2 hids hseq
        refine ⟨hseq, hcl.2, fun x hx => ?_⟩
        rw [hids] at hx
        exact absurd hx (List.not_mem_nil x)
      · have ht2eq : t2 = KStmt.Move t e := by simpa using ht2
        rw [ht2eq]
        refine ⟨rfl, ?_, fun x hx => ?_⟩
        · simp [stmtSimple, hs.1, hs.2]
        · simp only [stmtIds, hs.1, List.nil_append] at hx
          exact hcov x hx
  | KStmt.SExpr e, acc, hs => by
    simp only [stmtSimple] at hs
    rcases update_spec e acc.1 acc.2 hs with ⟨uS, uR, hu, huS, huR, hcov⟩
    refine ⟨uS ++ [KStmt.SExpr e], uR, ?_, huR, ?_⟩
    · have hdef : extract (KStmt.SExpr e) acc =
        ((update e acc.1 acc.2).1 ++ [KStmt.SExpr e],
         (update e acc.1 acc.2).2) := rfl
      rw [hdef, hu]
      simp [List.append_assoc]
    · intro t2 ht2
      rcases List.mem_append.mp ht2 with ht2 | ht2
      · rcases huS t2 ht2 with ⟨hids, hseq⟩
        have hcl := stmtIds_nil_clean t2 hids hseq
        refine ⟨hseq, hcl.2, fun x hx => ?_⟩
        rw [hids] at hx
        exact absurd hx (List.not_mem_nil x)
      · have ht2eq : t2 = KStmt.SExpr e := by simpa using ht2
        rw [ht2eq]
        refine ⟨rfl, by simp [stmtSimple, hs], fun x hx => ?_⟩
        simp only [stmtIds] at hx
        exact hcov x hx
  | KStmt.CJump op c tl fl, acc, hs => by
    simp only [stmtSimple] at hs
    rcases update_spec c acc.1 acc.2 hs with ⟨uS, uR, hu, huS, huR, hcov⟩
    refine ⟨uS ++ [KStmt.CJump op c tl fl], uR, ?_, huR, ?_⟩
    · have hdef : extract (KStmt.CJump op c tl fl) acc =
        ((update c acc.1 acc.2).1 ++ [KStmt.CJump op c tl fl],
         (update c acc.1 acc.2).2) := rfl
      rw [hdef, hu]
      simp [List.append_assoc]
    · intro t2 ht2
      rcases List.mem_append.mp ht2 with ht2 | ht2
      · rcases huS t2 ht2 with ⟨hids, hseq⟩
        have hcl := stmtIds_nil_clean t2 hids hseq
        refine ⟨hseq, hcl.2, fun x hx => ?_⟩
        rw [hids] at hx
        exact absurd hx (List.not_mem_nil x)
      · have ht2eq : t2 = KStmt.CJump op c tl fl := by simpa using ht2
        rw [ht2eq]
        refine ⟨rfl, by simp [stmtSimple, hs], fun x hx => ?_⟩
        simp only [stmtIds] at hx
        exact hcov x hx
  | KStmt.SLabel n, acc, _ => by
    refine ⟨[KStmt.SLabel n], [], by simp [extract], ?_, ?_⟩
    · intro r hr; exact absurd hr (List.not_mem_nil r)
    · intro t2 ht2
      have ht2eq : t2 = KStmt.SLabel n := by simpa using ht2
      rw [ht2eq]
      refine ⟨rfl, by simp [stmtSimple], fun x hx => ?_⟩
      simp [stmtIds] at hx
  | KStmt.Jump lb, acc, _ => by
    refine ⟨[KStmt.Jump lb], [], by simp [extract], ?_, ?_⟩
    · intro r hr; exact absurd hr (List.not_mem_nil r)
    · intro t2 ht2
      have ht2eq : t2 = KStmt.Jump lb := by simpa using ht2
      rw [ht2eq]
      refine ⟨rfl, by simp [stmtSimple], fun x hx => ?_⟩
      simp [stmtIds] at hx
  | KStmt.Noop, acc, _ => by
    refine ⟨[KStmt.Noop], [], by simp [extract], ?_, ?_⟩
    · intro r hr; exact absurd hr (List.not_mem_nil r)
    · intro t2 ht2
      have ht2eq : t2 = KStmt.Noop := by simpa using ht2
      rw [ht2eq]
      refine ⟨rfl, by simp [stmtSimple], fun x hx => ?_⟩
      simp [stmtIds] at hx
termination_by s => sizeOf s

theorem extractFold_spec :
    ∀ (items : List KStmt)
      (acc : List (Option String × List KStmt) × List (Nat × KExpr)),
      (∀ s ∈ items, stmtSimple s = true) →
      (∀ g ∈ acc.1, ∀ t ∈ g.2, isSeqStmt t = false ∧ stmtSimple t = true ∧
        ∀ x ∈ stmtIds t, x ∈ acc.2.map Prod.fst) →
      (∀ r ∈ acc.2, exprIds r.2 = []) →
      (∀ g ∈ (items.foldl extractStep acc).1, ∀ t ∈ g.2,
        isSeqStmt t = false ∧ stmtSimple t = true ∧
        ∀ x ∈ stmtIds t, x ∈ (items.foldl extractStep acc).2.map Prod.fst) ∧
      (∀ r ∈ (items.foldl extractStep acc).2, exprIds r.2 = []) := by
  intro items
  induction items with
  | nil =>
    intro acc _ hg hr
    exact ⟨hg, hr⟩
  | cons item rest ih =>
    intro acc hsimple hg hr
    rcases extract_spec item ([], acc.2)
      (hsimple item (List.mem_cons_self _ _)) with ⟨S, R, hex, hRc, hTc⟩
    have hstep : extractStep acc item =
        (acc.1 ++ [(stmtLabel item, S)], acc.2 ++ R) := by
      unfold extractStep
      rw [hex]
      simp
    rw [List.foldl_cons, hstep]
    apply ih
    · intro s hsm
      exact hsimple s (List.mem_cons_of_mem _ hsm)
    · intro g hgm t ht
      rcases List.mem_append.mp hgm with hgm | hgm
      · rcases hg g hgm t ht with ⟨ha, hb, hc⟩
        refine ⟨ha, hb, fun x hx => ?_⟩
        rw [List.map_append]
        exact List.mem_append.mpr (Or.inl (hc x hx))
      · have hgeq : g = (stmtLabel item, S) := by simpa using hgm
        rw [hgeq] at ht
        rcases hTc t ht with ⟨ha, hb, hc⟩
        refine ⟨ha, hb, fun x hx => ?_⟩
        rw [List.map_append]
        exact List.mem_append.mpr (Or.inr (hc x hx))
    · intro r hrm
      rcases List.mem_append.mp hrm with hrm | hrm
      · exact hr r hrm
      · exact hRc r hrm

theorem replaceGroupsFold :
    ∀ (reps : List (Nat × KExpr)) (groups : List (Option String × List KStmt)),
      reps.foldl replaceGroupsStep groups =
        groups.map (fun g => (g.1, g.2.map
          (fun s => reps.foldl (fun cur r => replaceStmt r.1 r.2 cur) s))) := by
  intro reps
  induction reps with
  | nil => intro groups; simp
  | cons r rest ih =>
    intro groups
    rw [List.foldl_cons, ih]
    unfold replaceGroupsStep
    rw [List.map_map]
    apply List.map_congr_left
    intro g _
    simp [List.map_map, Function.comp]

theorem canonicalize_flat_clean (ir ir1 : List KStmt)
    (ext : List (Option String × List KStmt) × List (Nat × KExpr))
    (hsimple : ∀ s ∈ ir, stmtSimple s = true)
    (hir1 : ir1 = (ir.map rewriteStmt).filter (fun s => !(isNoop s)))
    (hext : ext = ir1.foldl extractStep ([], [])) :
    ∀ st ∈ ((ext.2.foldl replaceGroupsStep ext.1).map Prod.snd).join,
      stmtIds st = [] ∧ stmtNoSeq st = true := by
  have hsimple1 : ∀ s ∈ ir1, stmtSimple s = true := by
    intro s hs
    rw [hir1] at hs
    have hs2 := List.mem_of_mem_filter hs
    have hmap : List.map rewriteStmt ir = ir := by
      have hid : rewriteStmt = id := rfl
      rw [hid, List.map_id]
    rw [hmap] at hs2
    exact hsimple s hs2
  have hfold := extractFold_spec ir1 ([], []) hsimple1
    (by intro g hg2; exact absurd hg2 (List.not_mem_nil g))
    (by intro r hr; exact absurd hr (List.not_mem_nil r))
  rw [← hext] at hfold
  obtain ⟨hG, hR⟩ := hfold
  intro st hst
  rw [replaceGroupsFold, List.map_map] at hst
  rw [List.mem_join] at hst
  obtain ⟨l, hl, hstl⟩ := hst
  rw [List.mem_map] at hl
  obtain ⟨g, hg, rfl⟩ := hl
  simp only [Function.comp, Prod.snd] at hstl
  rw [List.mem_map] at hstl
  obtain ⟨t, ht, rfl⟩ := hstl
  obtain ⟨hseq, hsimp2, hcov⟩ := hG g hg t ht
  have hclean := replaceFold_clean ext.2 t hsimp2 hR hcov
  refine ⟨hclean.1, ?_⟩
  exact (stmtIds_nil_clean _ hclean.1 (hclean.2.trans hseq)).1

theorem blockWF_close (n : String) (body : List KStmt) (t : KStmt)
    (hterm : isTerminatorStmt t = true)
    (hbody : ∀ st ∈ body, isTerminatorStmt st = false ∧ isLabelStmt st = false) :
    blockWF (KStmt.SLabel n :: (body ++ [t])) = true := by
  simp only [blockWF, List.getLast?_concat, List.dropLast_concat, hterm,
    Bool.true_and, List.all_eq_true, Bool.and_eq_true, Bool.not_eq_true']
  intro st hst
  exact ⟨(hbody st hst).1, (hbody st hst).2⟩

theorem closedBlock_ok (c : List KStmt) (t : KStmt)
    (hterm : isTerminatorStmt t = true)
    (hPt : stmtIds t = [] ∧ stmtNoSeq t = true)
    (hc : (∃ n body, c = KStmt.SLabel n :: body ∧
        ∀ st ∈ body, isTerminatorStmt st = false ∧ isLabelStmt st = false) ∧
      ∀ st ∈ c, stmtIds st = [] ∧ stmtNoSeq st = true) :
    blockWF (c ++ [t]) = true ∧
    ∀ st ∈ c ++ [t], stmtIds st = [] ∧ stmtNoSeq st = true := by
  obtain ⟨⟨n, body, rfl, hbody⟩, hP⟩ := hc
  constructor
  · show blockWF (KStmt.SLabel n :: (body ++ [t])) = true
    exact blockWF_close n body t hterm hbody
  · intro st hst
    rcases List.mem_append.mp hst with h | h
    · exact hP st h
    · have hsteq : st = t := by simpa using h
      rw [hsteq]
      exact hPt

theorem curExtend_inv (c : List KStmt) (s : KStmt)
    (hs1 : isTerminatorStmt s = false) (hs2 : isLabelStmt s = false)
    (hPs : stmtIds s = [] ∧ stmtNoSeq s = true)
    (hc : (∃ n body, c = KStmt.SLabel n :: body ∧
        ∀ st ∈ body, isTerminatorStmt st = false ∧ isLabelStmt st = false) ∧
      ∀ st ∈ c, stmtIds st = [] ∧ stmtNoSeq st = true) :
    (∃ n body, c ++ [s] = KStmt.SLabel n :: body ∧
        ∀ st ∈ body, isTerminatorStmt st = false ∧ isLabelStmt st = false) ∧
      ∀ st ∈ c ++ [s], stmtIds st = [] ∧ stmtNoSeq st = true := by
  obtain ⟨⟨n, body, rfl, hbody⟩, hP⟩ := hc
  refine ⟨⟨n, body ++ [s], rfl, ?_⟩, ?_⟩
  · intro st hst
    rcases List.mem_append.mp hst with h | h
    · exact hbody st h
    · have hsteq : st = s := by simpa using h
      rw [hsteq]
      exact ⟨hs1, hs2⟩
  · intro st hst
    rcases List.mem_append.mp hst with h | h
    · exact hP st h
    · have hsteq : st = s := by simpa using h
      rw [hsteq]
      exact hPs

theorem blocksExtend_inv (blocks : List (List KStmt)) (c : List KStmt)
    (t : KStmt)
    (hblocks : ∀ b ∈ blocks, blockWF b = true ∧
      ∀ st ∈ b, stmtIds st = [] ∧ stmtNoSeq st = true)
    (hnew : blockWF (c ++ [t]) = true ∧
      ∀ st ∈ c ++ [t], stmtIds st = [] ∧ stmtNoSeq st = true) :
    ∀ b ∈ blocks ++ [c ++ [t]], blockWF b = true ∧
      ∀ st ∈ b, stmtIds st = [] ∧ stmtNoSeq st = true := by
  intro b hb
  rcases List.mem_append.mp hb with h | h
  · exact hblocks b h
  · have hbeq : b = c ++ [t] := by simpa using h
    rw [hbeq]
    exact hnew

theorem basicBlocksAux_wf (done : String) :
    ∀ (rest : List KStmt) (cur : Option (List KStmt))
      (blocks : List (List KStmt)),
      (∀ st ∈ rest, stmtIds st = [] ∧ stmtNoSeq st = true) →
      (∀ b ∈ blocks, blockWF b = true ∧
        ∀ st ∈ b, stmtIds st = [] ∧ stmtNoSeq st = true) →
      (∀ c, cur = some c →
        (∃ n body, c = KStmt.SLabel n :: body ∧
          ∀ st ∈ body, isTerminatorStmt st = false ∧ isLabelStmt st = false) ∧
        ∀ st ∈ c, stmtIds st = [] ∧ stmtNoSeq st = true) →
      ∀ b ∈ basicBlocksAux done rest cur blocks,
        blockWF b = true ∧ ∀ st ∈ b, stmtIds st = [] ∧ stmtNoSeq st = true := by
  intro rest
  induction rest with
  | nil =>
    intro cur blocks hrest hblocks hcur
    cases cur with
    | none =>
      intro b hb
      simp only [basicBlocksAux] at hb
      exact hblocks b hb
    | some c =>
      intro b hb
      simp only [basicBlocksAux] at hb
      refine blocksExtend_inv blocks c (KStmt.Jump done) hblocks ?_ b hb
      exact closedBlock_ok c (KStmt.Jump done) rfl
        (by simp [stmtIds, stmtNoSeq]) (hcur c rfl)
  | cons s rest ih =>
    intro cur blocks hrest hblocks hcur
    have hrest' : ∀ st ∈ rest, stmtIds st = [] ∧ stmtNoSeq st = true :=
      fun st h => hrest st (List.mem_cons_of_mem _ h)
    have hPs := hrest s (List.mem_cons_self _ _)
    cases s with
    | SLabel n =>
      have hnewcur : ∀ c2, (some [KStmt.SLabel n] : Option (List KStmt)) = some c2 →
          (∃ m body, c2 = KStmt.SLabel m :: body ∧
            ∀ st ∈ body, isTerminatorStmt st = false ∧ isLabelStmt st = false) ∧
          ∀ st ∈ c2, stmtIds st = [] ∧ stmtNoSeq st = true := by
        intro c2 hc2
        injection hc2 with hc2
        subst hc2
        refine ⟨⟨n, [], rfl, fun st h => absurd h (List.not_mem_nil st)⟩, ?_⟩
        intro st h
        have hsteq : st = KStmt.SLabel n := by simpa using h
        rw [hsteq]
        exact ⟨by simp [stmtIds], by simp [stmtNoSeq]⟩
      cases cur with
      | none =>
        intro b hb
        simp only [basicBlocksAux] at hb
        exact ih (some [KStmt.SLabel n]) blocks hrest' hblocks hnewcur b hb
      | some c =>
        intro b hb
        simp only [basicBlocksAux] at hb
        refine ih (some [KStmt.SLabel n]) _ hrest' ?_ hnewcur b hb
        exact blocksExtend_inv blocks c (KStmt.Jump n) hblocks
          (closedBlock_ok c (KStmt.Jump n) rfl
            (by simp [stmtIds, stmtNoSeq]) (hcur c rfl))
    | Jump l =>
      cases cur with
      | none =>
        intro b hb
        simp only [basicBlocksAux] at hb
        exact ih none blocks hrest' hblocks (fun c hc => by cases hc) b hb
      | some c =>
        intro b hb
        simp only [basicBlocksAux] at hb
        refine ih none _ hrest' ?_ (fun c2 hc2 => by cases hc2) b hb
        exact blocksExtend_inv blocks c (KStmt.Jump l) hblocks
          (closedBlock_ok c (KStmt.Jump l) rfl hPs (hcur c rfl))
    | CJump op c2 t f =>
      cases cur with
      | none =>
        intro b hb
        simp only [basicBlocksAux] at hb
        exact ih none blocks hrest' hblocks (fun c hc => by cases hc) b hb
      | some c =>
        intro b hb
        simp only [basicBlocksAux] at hb
        refine ih none _ hrest' ?_ (fun c3 hc3 => by cases hc3) b hb
        exact blocksExtend_inv blocks c (KStmt.CJump op c2 t f) hblocks
          (closedBlock_ok c (KStmt.CJump op c2 t f) rfl hPs (hcur c rfl))
    | Seq l r =>
      exact absurd hPs.2 (by simp [stmtNoSeq])
    | Move tgt e =>
      cases cur with
      | none =>
        intro b hb
        simp only [basicBlocksAux] at hb
        exact ih none blocks hrest' hblocks (fun c hc => by cases hc) b hb
      | some c =>
        intro b hb
        simp only [basicBlocksAux] at hb
        refine ih (some (c ++ [KStmt.Move tgt e])) blocks hrest' hblocks ?_ b hb
        intro c2 hc2
        injection hc2 with hc2
        subst hc2
        exact curExtend_inv c _ rfl rfl hPs (hcur c rfl)
    | SExpr e =>
      cases cur with
      | none =>
        intro b hb
        simp only [basicBlocksAux] at hb
        exact ih none blocks hrest' hblocks (fun c hc => by cases hc) b hb
      | some c =>
        intro b hb
        simp only [basicBlocksAux] at hb
        refine ih (some (c ++ [KStmt.SExpr e])) blocks hrest' hblocks ?_ b hb
        intro c2 hc2
        injection hc2 with hc2
        subst hc2
        exact curExtend_inv c _ rfl rfl hPs (hcur c rfl)
    | Noop =>
      cases cur with
      | none =>
        intro b hb
        simp only [basicBlocksAux] at hb
        exact ih none blocks hrest' hblocks (fun c hc => by cases hc) b hb
      | some c =>
        intro b hb
        simp only [basicBlocksAux] at hb
        refine ih (some (c ++ [KStmt.Noop])) blocks hrest' hblocks ?_ b hb
        intro c2 hc2
        injection hc2 with hc2
        subst hc2
        exact curExtend_inv c _ rfl rfl hPs (hcur c rfl)

theorem getLast?_decomp {α : Type} : ∀ (l : List α) (x : α),
    l.getLast? = some x → ∃ ys, l = ys ++ [x]
  | [], x, h => by simp at h
  | [a], x, h => by
    simp at h
    exact ⟨[], by simp [h]⟩
  | a :: b :: t, x, h => by
    rw [List.getLast?_cons_cons] at h
    obtain ⟨ys, hys⟩ := getLast?_decomp (b :: t) x h
    exact ⟨a :: ys, by simp [hys]⟩

theorem blockWF_retarget (ys : List KStmt) (t1 t2 : KStmt)
    (h : blockWF (ys ++ [t1]) = true) (ht2 : isTerminatorStmt t2 = true) :
    blockWF (ys ++ [t2]) = true := by
  cases ys with
  | nil =>
    cases t1 <;> simp [blockWF] at h
  | cons hd tl =>
    rw [List.cons_append] at h ⊢
    cases hd
    case SLabel n =>
      simp only [blockWF, List.getLast?_concat, List.dropLast_concat,
        Bool.and_eq_true] at h ⊢
      exact ⟨ht2, h.2⟩
    all_goals simp [blockWF] at h

theorem swapCJumpLast_preserves (b : List KStmt)
    (h : blockWF b = true ∧ ∀ st ∈ b, stmtIds st = [] ∧ stmtNoSeq st = true) :
    blockWF (swapCJumpLast b) = true ∧
    ∀ st ∈ swapCJumpLast b, stmtIds st = [] ∧ stmtNoSeq st = true := by
  unfold swapCJumpLast
  cases hlast : b.getLast? with
  | none => exact h
  | some s =>
    cases s with
    | CJump op c t f =>
      cases op with
      | Cmp rel =>
        obtain ⟨ys, hb⟩ := getLast?_decomp b _ hlast
        rw [hb, List.dropLast_concat]
        constructor
        · exact blockWF_retarget ys _ _ (hb ▸ h.1) rfl
        · intro st hst
          rcases List.mem_append.mp hst with hin | hin
          · exact h.2 st (hb ▸ List.mem_append.mpr (Or.inl hin))
          · have hsteq : st = KStmt.CJump (BinOp.Cmp (negateRel rel)) c f t := by
              simpa using hin
            have hold : KStmt.CJump (BinOp.Cmp rel) c t f ∈ b := by
              rw [hb]
              exact List.mem_append.mpr (Or.inr (by simp))
            have hP := h.2 _ hold
            rw [hsteq]
            simp only [stmtIds, stmtNoSeq] at hP ⊢
            exact hP
      | Plus => exact h
      | Minus => exact h
      | Mul => exact h
      | Div => exact h
      | Xor => exact h
    | Move t e => exact h
    | SExpr e => exact h
    | Seq l r => exact h
    | SLabel n => exact h
    | Jump l => exact h
    | Noop => exact h

theorem pickBlock_mem (lbl : String) (queue : List (List KStmt))
    (nxt : List KStmt) (others : List (List KStmt))
    (h : pickBlock lbl queue = some (nxt, others)) :
    nxt ∈ queue ∧ ∀ b ∈ others, b ∈ queue := by
  unfold pickBlock at h
  rw [List.partition_eq_filter_filter] at h
  cases hf : queue.filter (fun blk => blockLabel blk = some lbl) with
  | nil =>
    rw [hf] at h
    exact absurd h (by simp)
  | cons found more =>
    rw [hf] at h
    simp only [Option.some.injEq, Prod.mk.injEq] at h
    obtain ⟨h1, h2⟩ := h
    constructor
    · rw [← h1]
      exact List.mem_of_mem_filter (hf ▸ List.mem_cons_self found more)
    · intro b hb
      rw [← h2] at hb
      rcases List.mem_append.mp hb with hb | hb
      · have hbf : b ∈ queue.filter (fun blk => blockLabel blk = some lbl) := by
          rw [hf]
          exact List.mem_cons_of_mem _ hb
        exact List.mem_of_mem_filter hbf
      · exact List.mem_of_mem_filter hb

theorem traceGo_mem : ∀ (fuel : Nat) (queue : List (List KStmt))
    (c : List KStmt), c ∈ traceGo fuel queue →
    (∃ b, b ∈ queue ∧ (c = b ∨ c = swapCJumpLast b)) ∨
    ∃ l1 l2, c = [KStmt.SLabel l1, KStmt.Jump l2]
  | 0, queue, c, hc => by
    simp only [traceGo] at hc
    exact Or.inl ⟨c, hc, Or.inl rfl⟩
  | fuel + 1, [], c, hc => by
    simp only [traceGo] at hc
    exact absurd hc (List.not_mem_nil c)
  | fuel + 1, b :: rest, c, hc => by
    cases hlast : b.getLast? with
    | none =>
      simp only [traceGo, hlast] at hc
      rcases List.mem_cons.mp hc with heq | hc2
      · exact Or.inl ⟨b, List.mem_cons_self _ _, Or.inl heq⟩
      · rcases traceGo_mem fuel rest c hc2 with ⟨b2, hb2, hor⟩ | hfix
        · exact Or.inl ⟨b2, List.mem_cons_of_mem _ hb2, hor⟩
        · exact Or.inr hfix
    | some s =>
      cases s with
      | CJump op c2 t f =>
        cases hpick : pickBlock f rest with
        | some pr =>
          obtain ⟨nxt, others⟩ := pr
          simp only [traceGo, hlast, hpick] at hc
          rcases List.mem_cons.mp hc with heq | hc2
          · exact Or.inl ⟨b, List.mem_cons_self _ _, Or.inl heq⟩
          · rcases traceGo_mem fuel (nxt :: others) c hc2 with
              ⟨b2, hb2, hor⟩ | hfix
            · have hmem := pickBlock_mem f rest nxt others hpick
              rcases List.mem_cons.mp hb2 with heq2 | hbo
              · exact Or.inl ⟨b2, List.mem_cons_of_mem _
                  (by rw [heq2]; exact hmem.1), hor⟩
              · exact Or.inl ⟨b2, List.mem_cons_of_mem _ (hmem.2 b2 hbo), hor⟩
            · exact Or.inr hfix
        | none =>
          cases hpick2 : pickBlock t rest with
          | some pr =>
            obtain ⟨nxt, others⟩ := pr
            simp only [traceGo, hlast, hpick, hpick2] at hc
            rcases List.mem_cons.mp hc with heq | hc2
            · exact Or.inl ⟨b, List.mem_cons_self _ _, Or.inr heq⟩
            · rcases traceGo_mem fuel (nxt :: others) c hc2 with
                ⟨b2, hb2, hor⟩ | hfix
              · have hmem := pickBlock_mem t rest nxt others hpick2
                rcases List.mem_cons.mp hb2 with heq2 | hbo
                · exact Or.inl ⟨b2, List.mem_cons_of_mem _
                    (by rw [heq2]; exact hmem.1), hor⟩
                · exact Or.inl ⟨b2, List.mem_cons_of_mem _ (hmem.2 b2 hbo),
                    hor⟩
              · exact Or.inr hfix
          | none =>
            simp only [traceGo, hlast, hpick, hpick2] at hc
            rcases List.mem_cons.mp hc with heq | hc3
            · exact Or.inl ⟨b, List.mem_cons_self _ _, Or.inl heq⟩
            · rcases List.mem_cons.mp hc3 with heqf | hc2
              · exact Or.inr ⟨f ++ ".fix", f, heqf⟩
              · rcases traceGo_mem fuel rest c hc2 with ⟨b2, hb2, hor⟩ | hfix
                · exact Or.inl ⟨b2, List.mem_cons_of_mem _ hb2, hor⟩
                · exact Or.inr hfix
      | Jump l =>
        cases hpick : pickBlock l rest with
        | some pr =>
          obtain ⟨nxt, others⟩ := pr
          simp only [traceGo, hlast, hpick] at hc
          rcases List.mem_cons.mp hc with heq | hc2
          · exact Or.inl ⟨b, List.mem_cons_self _ _, Or.inl heq⟩
          · rcases traceGo_mem fuel (nxt :: others) c hc2 with
              ⟨b2, hb2, hor⟩ | hfix
            · have hmem := pickBlock_mem l rest nxt others hpick
              rcases List.mem_cons.mp hb2 with heq2 | hbo
              · exact Or.inl ⟨b2, List.mem_cons_of_mem _
                  (by rw [heq2]; exact hmem.1), hor⟩
              · exact Or.inl ⟨b2, List.mem_cons_of_mem _ (hmem.2 b2 hbo), hor⟩
            · exact Or.inr hfix
        | none =>
          simp only [traceGo, hlast, hpick] at hc
          rcases List.mem_cons.mp hc with heq | hc2
          · exact Or.inl ⟨b, List.mem_cons_self _ _, Or.inl heq⟩
          · rcases traceGo_mem fuel rest c hc2 with ⟨b2, hb2, hor⟩ | hfix
            · exact Or.inl ⟨b2, List.mem_cons_of_mem _ hb2, hor⟩
            · exact Or.inr hfix
      | Move tg e =>
        simp only [traceGo, hlast] at hc
        rcases List.mem_cons.mp hc with heq | hc2
        · exact Or.inl ⟨b, List.mem_cons_self _ _, Or.inl heq⟩
        · rcases traceGo_mem fuel rest c hc2 with ⟨b2, hb2, hor⟩ | hfix
          · exact Or.inl ⟨b2, List.mem_cons_of_mem _ hb2, hor⟩
          · exact Or.inr hfix
      | SExpr e =>
        simp only [traceGo, hlast] at hc
        rcases List.mem_cons.mp hc with heq | hc2
        · exact Or.inl ⟨b, List.mem_cons_self _ _, Or.inl heq⟩
        · rcases traceGo_mem fuel rest c hc2 with ⟨b2, hb2, hor⟩ | hfix
          · exact Or.inl ⟨b2, List.mem_cons_of_mem _ hb2, hor⟩
          · exact Or.inr hfix
      | Seq l r =>
        simp only [traceGo, hlast] at hc
        rcases List.mem_cons.mp hc with heq | hc2
        · exact Or.inl ⟨b, List.mem_cons_self _ _, Or.inl heq⟩
        · rcases traceGo_mem fuel rest c hc2 with ⟨b2, hb2, hor⟩ | hfix
          · exact Or.inl ⟨b2, List.mem_cons_of_mem _ hb2, hor⟩
          · exact Or.inr hfix
      | SLabel n =>
        simp only [traceGo, hlast] at hc
        rcases List.mem_cons.mp hc with heq | hc2
        · exact Or.inl ⟨b, List.mem_cons_self _ _, Or.inl heq⟩
        · rcases traceGo_mem fuel rest c hc2 with ⟨b2, hb2, hor⟩ | hfix
          · exact Or.inl ⟨b2, List.mem_cons_of_mem _ hb2, hor⟩
          · exact Or.inr hfix
      | Noop =>
        simp only [traceGo, hlast] at hc
        rcases List.mem_cons.mp hc with heq | hc2
        · exact Or.inl ⟨b, List.mem_cons_self _ _, Or.inl heq⟩
        · rcases traceGo_mem fuel rest c hc2 with ⟨b2, hb2, hor⟩ | hfix
          · exact Or.inl ⟨b2, List.mem_cons_of_mem _ hb2, hor⟩
          · exact Or.inr hfix

/-- **C8 counterexample.**  On the translator's output for a three-field
initializer (`initChainIR`), `canonicalize` leaves a nested `Seq` in the
emitted block: `update` (canon/mod.rs) splits an extracted `ESeq`'s
carried statement only one `Seq` level deep, so the right-nested chain
`Seq(m0, Some(Seq(m1, Some m2)))` built by `Stmt::from` is pushed with
`Seq(m1, Some m2)` intact -- refuting "every `Seq` has been flattened"
for this well-typed program.  (Codegen keeps a post-canonicalisation
`Stmt::Seq` arm that executes such leftovers.) -/
theorem canonicalize_keeps_nested_seq :
    ∃ b ∈ canonicalize "main.epilogue" 4 initChainIR, ∃ st ∈ b,
      stmtNoSeq st = false := by
  have hcanon : canonicalize "main.epilogue" 4 initChainIR =
      [[KStmt.SLabel "main",
        KStmt.Move
          (KExpr.Mem (KExpr.Binary BinOp.Plus (KExpr.Temp "x29")
            (KExpr.ConstInt (-24))))
          (KExpr.ConstInt 1),
        KStmt.Seq
          (KStmt.Move
            (KExpr.Mem (KExpr.Binary BinOp.Plus (KExpr.Temp "x29")
              (KExpr.ConstInt (-16))))
            (KExpr.ConstInt 2))
          (some (KStmt.Move
            (KExpr.Mem (KExpr.Binary BinOp.Plus (KExpr.Temp "x29")
              (KExpr.ConstInt (-8))))
            (KExpr.ConstInt 3))),
        KStmt.Move (KExpr.Temp "T0") (KExpr.ConstInt (-8)),
        KStmt.Jump "main.epilogue"]] := by
    simp [canonicalize, initChainIR, extractStep, extract, update, updStep,
      eseqsOf, eseqsOfStmt, eseqsOfList, stmtLabel, replaceGroupsStep,
      replaceStmt, replaceExpr, basicBlocks, basicBlocksAux, traceGo,
      pickBlock, blockLabel, isNoop, rewriteStmt]
  rw [hcanon]
  refine ⟨_, List.mem_singleton_self _,
    KStmt.Seq
      (KStmt.Move
        (KExpr.Mem (KExpr.Binary BinOp.Plus (KExpr.Temp "x29")
          (KExpr.ConstInt (-16))))
        (KExpr.ConstInt 2))
      (some (KStmt.Move
        (KExpr.Mem (KExpr.Binary BinOp.Plus (KExpr.Temp "x29")
          (KExpr.ConstInt (-8))))
        (KExpr.ConstInt 3))), ?_, ?_⟩
  · simp
  · simp [stmtNoSeq]

/-- **C8** (amended positive side; the original claim is refuted by
`canonicalize_keeps_nested_seq` above, since `update` splits a carried
`Seq` only one level deep).  For input whose every `ESeq` carries an
`ESeq`-free statement at most one `Seq` level deep and an `ESeq`-free
payload (initializers with at most two flattened fields, and the
translator's fix-temp wrappers), every block produced by `canonicalize`
is a well-formed basic block -- it starts with a label, is terminated by
exactly one `Jump` or `CJump`, and contains no other transfer or label
-- and every statement in it contains no `Seq` node and no `ESeq`
expression. -/
theorem canonicalize_canonical_form (done : String) (fuel : Nat)
    (ir : List KStmt) (hsimple : ∀ s ∈ ir, stmtSimple s = true) :
    ∀ b ∈ canonicalize done fuel ir,
      blockWF b = true ∧
      ∀ st ∈ b, stmtNoSeq st = true ∧ stmtIds st = [] := by
  intro b hb
  have hb2 : b ∈ traceGo fuel (basicBlocks done
      ((((((ir.map rewriteStmt).filter (fun s => !(isNoop s))).foldl
        extractStep ([], [])).2.foldl replaceGroupsStep
        ((((ir.map rewriteStmt).filter (fun s => !(isNoop s))).foldl
        extractStep ([], []))).1)).map Prod.snd).join) := hb
  have hflat := canonicalize_flat_clean ir
      ((ir.map rewriteStmt).filter (fun s => !(isNoop s)))
      (((ir.map rewriteStmt).filter (fun s => !(isNoop s))).foldl
        extractStep ([], [])) hsimple rfl rfl
  have hblocks := basicBlocksAux_wf done _ none [] hflat
      (fun b2 hb3 => absurd hb3 (List.not_mem_nil b2))
      (fun c hc => by cases hc)
  rcases traceGo_mem fuel _ b hb2 with ⟨b0, hb0, hor⟩ | ⟨l1, l2, heqf⟩
  · have hP := hblocks b0 hb0
    rcases hor with heq | heq
    · rw [heq]
      exact ⟨hP.1, fun st h => ⟨(hP.2 st h).2, (hP.2 st h).1⟩⟩
    · rw [heq]
      have hsw := swapCJumpLast_preserves b0 hP
      exact ⟨hsw.1, fun st h => ⟨(hsw.2 st h).2, (hsw.2 st h).1⟩⟩
  · rw [heqf]
    refine ⟨by simp [blockWF, isTerminatorStmt], ?_⟩
    intro st hst
    rcases List.mem_cons.mp hst with heq | hst2
    · rw [heq]
      exact ⟨by simp [stmtNoSeq], by simp [stmtIds]⟩
    · have hsteq : st = KStmt.Jump l2 := by simpa using hst2
      rw [hsteq]
      exact ⟨by simp [stmtNoSeq], by simp [stmtIds]⟩

theorem canonicalize_canonical_form_witness :
    (∀ s ∈ [KStmt.SLabel "main",
        KStmt.Move (KExpr.Temp "ret")
          (KExpr.ESeq (KStmt.Move (KExpr.Temp "T9") (KExpr.ConstInt 5))
            (KExpr.Temp "T9") 0),
        KStmt.Jump "main.epilogue"], stmtSimple s = true) ∧
    ∀ b ∈ canonicalize "main.epilogue" 4 [KStmt.SLabel "main",
        KStmt.Move (KExpr.Temp "ret")
          (KExpr.ESeq (KStmt.Move (KExpr.Temp "T9") (KExpr.ConstInt 5))
            (KExpr.Temp "T9") 0),
        KStmt.Jump "main.epilogue"],
      blockWF b = true ∧ ∀ st ∈ b, stmtNoSeq st = true ∧ stmtIds st = [] :=
  ⟨by simp [List.forall_mem_cons, stmtSimple, exprSimple, stmtIds, exprIds,
      flatPiece],
   canonicalize_canonical_form "main.epilogue" 4 _
     (by simp [List.forall_mem_cons, stmtSimple, exprSimple, stmtIds, exprIds,
       flatPiece])⟩

end Kyanite
